import Mathlib

/-!
Verification of the two microservices of this repository:

* `mistralOcr/app.py` — OCR + chat service; its only repo-local algorithm is the
  markdown-table parser/splicer in `ocr_and_chat_endpoint` and
  `parse_markdown_table`, plus the bounded upload loop and the
  `/chat/with-document` validation.
* `pdfTableExtract/app.py` — table-extraction service; its repo-local logic is
  `write_df_to_excel` (header decision, cell writing, column sizing), the
  sheet-title uniquing and placeholder-sheet logic of `_process_pdf`, and the
  upload/size-limit handling of `extract_tables`.

Strings are modelled as `List Char` (Python `str` is a sequence of code
points).  The table regex
`\|([^\n]+)\|\n\|([-|\s]+)\|\n((?:\|[^\n]+\|\n?)*)`
is hand-compiled to a deterministic matcher below; the compilation is justified
step by step in the comments, following Python `re` leftmost/greedy
backtracking semantics.
-/

namespace PrimithSpec

/-! ## Generic list-lookup lemmas -/

theorem lget_append_left {α : Type} {l₁ l₂ : List α} {n : Nat}
    (h : n < l₁.length) : (l₁ ++ l₂).get? n = l₁.get? n := by
  induction l₁ generalizing n with
  | nil => simp at h
  | cons a t ih =>
    cases n with
    | zero => rfl
    | succ m => simpa using ih (by simpa using Nat.lt_of_succ_lt_succ h)

theorem lget_append_right {α : Type} {l₁ l₂ : List α} {n : Nat}
    (h : l₁.length ≤ n) : (l₁ ++ l₂).get? n = l₂.get? (n - l₁.length) := by
  induction l₁ generalizing n with
  | nil => simp
  | cons a t ih =>
    cases n with
    | zero => simp at h
    | succ m =>
      have := ih (Nat.le_of_succ_le_succ h)
      simpa [Nat.succ_sub_succ] using this

theorem lget_drop {α : Type} (l : List α) (i n : Nat) :
    (l.drop i).get? n = l.get? (i + n) := by
  induction l generalizing i n with
  | nil => simp
  | cons a t ih =>
    cases i with
    | zero => simp
    | succ j =>
      simpa [Nat.succ_add] using ih j n

theorem lget_mem {α : Type} {l : List α} {n : Nat} {c : α}
    (h : l.get? n = some c) : c ∈ l := by
  induction l generalizing n with
  | nil => simp at h
  | cons a t ih =>
    cases n with
    | zero =>
      simp only [List.get?] at h
      exact (Option.some_inj.mp h) ▸ List.mem_cons_self a t
    | succ m => exact List.mem_cons_of_mem _ (ih h)

/-- Slice `s[i:j]` of Python. -/
def extract (s : List Char) (i j : Nat) : List Char :=
  (s.drop i).take (j - i)

theorem lget_take {α : Type} {l : List α} {k n : Nat} (h : n < k) :
    (l.take k).get? n = l.get? n := by
  induction l generalizing k n with
  | nil => simp
  | cons a t ih =>
    cases k with
    | zero => omega
    | succ m =>
      cases n with
      | zero => rfl
      | succ p => simpa using ih (Nat.lt_of_succ_lt_succ h)

theorem extract_get? {s : List Char} {i j n : Nat} (h : n < j - i) :
    (extract s i j).get? n = s.get? (i + n) := by
  unfold extract
  rw [lget_take h, lget_drop]

theorem extract_length {s : List Char} {i j : Nat} (hij : i ≤ j)
    (hj : j ≤ s.length) : (extract s i j).length = j - i := by
  unfold extract
  rw [List.length_take, List.length_drop]
  omega

namespace MistralOcr

/-! ## Character classes of the table regex

`\s` in a Python 3 `str` pattern matches exactly the characters with the
Unicode whitespace property (same set as `str.isspace`):
space, `\t`, `\n`, `\v`, `\f`, `\r`, U+001C..U+001F, U+0085, U+00A0, U+1680,
U+2000..U+200A, U+2028, U+2029, U+202F, U+205F, U+3000. -/
def isPySpace (c : Char) : Bool :=
  let n := c.toNat
  n = 32 || n = 9 || n = 10 || n = 11 || n = 12 || n = 13 ||
  n = 28 || n = 29 || n = 30 || n = 31 || n = 0x85 || n = 0xa0 ||
  n = 0x1680 || (0x2000 ≤ n && n ≤ 0x200a) || n = 0x2028 || n = 0x2029 ||
  n = 0x202f || n = 0x205f || n = 0x3000

/-- Class `[^\n]` of the regex. -/
def isNotNL (c : Char) : Bool := !(c == '\n')

/-- Class `[-|\s]` of the separator-line group. -/
def sepD (c : Char) : Bool := c == '-' || c == '|' || isPySpace c

/-- Length of the maximal run of characters satisfying `f` starting at
position `i` of `s` (what a greedy `X*` over the class `f` consumes). -/
def countWhile (f : Char → Bool) (s : List Char) (i : Nat) : Nat :=
  ((s.drop i).takeWhile f).length

/-! ## Hand-compiled matcher for
`\|([^\n]+)\|\n\|([-|\s]+)\|\n((?:\|[^\n]+\|\n?)*)` at one position

Step `\|([^\n]+)\|\n` at `p`: the greedy run of non-newline characters after
`s[p] = '|'` has some length `a0`; backtracking over the group length `x`
needs `s[p+1+x] = '|'` and `s[p+2+x] = '\n'`.  Since positions
`p+1 .. p+a0` hold non-newline characters and `s[p+a0+1]` is the first
newline-or-end, the only `x` whose following position holds `'\n'` is
`x = a0 - 1`; so the step succeeds iff `a0 ≥ 2`, `s[p+a0] = '|'` and
`s[p+a0+1] = '\n'`, consuming through `p+a0+1`.

Step `\|([-|\s]+)\|\n` at `q0 = p+a0+2`: `[-|\s]` also matches `'|'` and
`'\n'`, so here backtracking is real: with `b` the greedy run length after
`s[q0] = '|'`, the group length chosen is the largest `l` with `1 ≤ l ≤ b`,
`s[q0+1+l] = '|'` and `s[q0+2+l] = '\n'` (everything after this step — the
row group — always succeeds, so the greedy choice is final).

Row step `\|[^\n]+\|\n?` at `r`: with `m` the greedy non-newline run length
after `s[r] = '|'`, the group ends at the largest `l ≤ m` with
`s[r+1+l] = '|'` (nothing after the optional `\n?` constrains it), then the
optional newline is consumed greedily.  The row group `(...)*` repeats this
until the body fails; since nothing follows the group in the pattern, the
greedy repetition is final. -/

/-- Largest `l` with `1 ≤ l ≤ bound`, `s[q0+1+l] = '|'` and
`s[q0+2+l] = '\n'` (the backtracking of the separator group). -/
def findSepEnd (s : List Char) (q0 : Nat) : Nat → Option Nat
  | 0 => none
  | l + 1 =>
    if s.get? (q0 + 1 + (l + 1)) = some '|' ∧ s.get? (q0 + 2 + (l + 1)) = some '\n' then
      some (l + 1)
    else findSepEnd s q0 l

/-- Largest `l` with `1 ≤ l ≤ bound` and `s[r+1+l] = '|'` (the backtracking
of a row line's cell group). -/
def findLastPipe (s : List Char) (r : Nat) : Nat → Option Nat
  | 0 => none
  | l + 1 =>
    if s.get? (r + 1 + (l + 1)) = some '|' then some (l + 1)
    else findLastPipe s r l

/-- One iteration of the row group `(?:\|[^\n]+\|\n?)` at position `r`;
returns the position after the iteration. -/
def rowIter (s : List Char) (r : Nat) : Option Nat :=
  if s.get? r = some '|' then
    match findLastPipe s r (countWhile isNotNL s (r + 1)) with
    | none => none
    | some l =>
      if s.get? (r + l + 2) = some '\n' then some (r + l + 3) else some (r + l + 2)
  else none

theorem findLastPipe_spec {s : List Char} {r : Nat} :
    ∀ {b l : Nat}, findLastPipe s r b = some l →
      1 ≤ l ∧ s.get? (r + 1 + l) = some '|' := by
  intro b
  induction b with
  | zero => intro l h; exact absurd h (by simp [findLastPipe])
  | succ b ih =>
    intro l h
    unfold findLastPipe at h
    split at h
    · rename_i hcond
      cases h
      exact ⟨Nat.succ_le_succ (Nat.zero_le b), hcond⟩
    · exact ih h

theorem rowIter_bounds {s : List Char} {r e : Nat} (h : rowIter s r = some e) :
    r + 3 ≤ e ∧ e ≤ s.length := by
  unfold rowIter at h
  split at h
  · split at h
    · exact absurd h (by simp)
    · rename_i l hfl
      obtain ⟨hl1, hc⟩ := findLastPipe_spec hfl
      have hlen : r + 1 + l < s.length := by
        by_contra hge
        rw [List.get?_eq_none.mpr (by omega)] at hc
        exact absurd hc (by simp)
      split at h
      · rename_i hnl
        have : r + l + 2 < s.length := by
          by_contra hge
          rw [List.get?_eq_none.mpr (by omega)] at hnl
          exact absurd hnl (by simp)
        cases h
        omega
      · cases h
        omega
  · exact absurd h (by simp)

/-- Position after the greedy row group `(?:\|[^\n]+\|\n?)*` starting at `r`. -/
def rowsEnd (s : List Char) (r : Nat) : Nat :=
  match h : rowIter s r with
  | none => r
  | some e => rowsEnd s e
termination_by s.length - r
decreasing_by
  have := rowIter_bounds h
  omega

theorem rowsEnd_eq_of_none {s : List Char} {r : Nat} (h : rowIter s r = none) :
    rowsEnd s r = r := by
  rw [rowsEnd, h]

theorem rowsEnd_eq_of_some {s : List Char} {r e : Nat} (h : rowIter s r = some e) :
    rowsEnd s r = rowsEnd s e := by
  rw [rowsEnd, h]

theorem rowsEnd_ge (s : List Char) (r : Nat) : r ≤ rowsEnd s r := by
  cases h : rowIter s r with
  | none => rw [rowsEnd_eq_of_none h]
  | some e =>
    rw [rowsEnd_eq_of_some h]
    have h1 := rowIter_bounds h
    have h2 := rowsEnd_ge s e
    omega
termination_by s.length - r
decreasing_by
  have := rowIter_bounds h
  omega

theorem rowsEnd_le {s : List Char} {r : Nat} (hr : r ≤ s.length) :
    rowsEnd s r ≤ s.length := by
  cases h : rowIter s r with
  | none => rw [rowsEnd_eq_of_none h]; exact hr
  | some e =>
    rw [rowsEnd_eq_of_some h]
    have h1 := rowIter_bounds h
    exact rowsEnd_le h1.2
termination_by s.length - r
decreasing_by
  have := rowIter_bounds h
  omega

/-- Header-line step plus everything after it, with `a` the greedy run length
of `[^\n]+` after the opening pipe (split out of `matchAt` so proofs can case
on the checks directly). -/
def matchAfterPipe (s : List Char) (p a : Nat) : Option Nat :=
  if 2 ≤ a ∧ s.get? (p + a) = some '|' ∧ s.get? (p + a + 1) = some '\n' then
    if s.get? (p + a + 2) = some '|' then
      match findSepEnd s (p + a + 2) (countWhile sepD s (p + a + 3)) with
      | none => none
      | some l => some (rowsEnd s (p + a + 2 + l + 3))
    else none
  else none

/-- The whole table pattern matched at position `p`; returns the end of the
match (Python `match.end()`). -/
def matchAt (s : List Char) (p : Nat) : Option Nat :=
  if s.get? p = some '|' then matchAfterPipe s p (countWhile isNotNL s (p + 1))
  else none

theorem findSepEnd_spec {s : List Char} {q0 b l : Nat}
    (h : findSepEnd s q0 b = some l) :
    1 ≤ l ∧ l ≤ b ∧ s.get? (q0 + 1 + l) = some '|' ∧ s.get? (q0 + 2 + l) = some '\n' := by
  induction b with
  | zero => exact absurd h (by simp [findSepEnd])
  | succ b ih =>
    unfold findSepEnd at h
    split at h
    · rename_i hc
      cases h
      exact ⟨Nat.succ_le_succ (Nat.zero_le b), Nat.le_refl _, hc.1, hc.2⟩
    · have := ih h
      exact ⟨this.1, Nat.le_succ_of_le this.2.1, this.2.2⟩

theorem matchAfterPipe_bounds {s : List Char} {p a e : Nat}
    (h : matchAfterPipe s p a = some e) : p + a + 5 ≤ e ∧ e ≤ s.length := by
  unfold matchAfterPipe at h
  split at h
  · split at h
    · split at h
      · exact absurd h (by simp)
      · rename_i l hfse
        cases h
        have hs := findSepEnd_spec hfse
        have h4 := hs.2.2.2
        have hlen : p + a + 2 + 2 + l < s.length := by
          by_contra hge
          rw [List.get?_eq_none.mpr (by omega)] at h4
          exact absurd h4 (by simp)
        have h1 := rowsEnd_ge s (p + a + 2 + l + 3)
        have h2 := rowsEnd_le (s := s) (r := p + a + 2 + l + 3) (by omega)
        omega
    · exact absurd h (by simp)
  · exact absurd h (by simp)

theorem matchAt_bounds {s : List Char} {p e : Nat} (h : matchAt s p = some e) :
    p < e ∧ e ≤ s.length := by
  unfold matchAt at h
  split at h
  · have := matchAfterPipe_bounds h
    omega
  · exact absurd h (by simp)

theorem matchAt_none_of_ge {s : List Char} {p : Nat} (h : s.length ≤ p) :
    matchAt s p = none := by
  unfold matchAt
  rw [List.get?_eq_none.mpr h]
  simp

/-- Leftmost match at a position `≥ pos` (the scan step of `finditer`). -/
def scanFrom (s : List Char) (pos : Nat) : Option (Nat × Nat) :=
  if s.length ≤ pos then none
  else
    match matchAt s pos with
    | some e => some (pos, e)
    | none => scanFrom s (pos + 1)
termination_by s.length - pos
decreasing_by
  rename_i hle
  omega

theorem scanFrom_spec {s : List Char} {pos p e : Nat}
    (h : scanFrom s pos = some (p, e)) :
    pos ≤ p ∧ matchAt s p = some e ∧ ∀ q, pos ≤ q → q < p → matchAt s q = none := by
  rw [scanFrom] at h
  split at h
  · exact absurd h (by simp)
  · rename_i hlt
    split at h
    · rename_i e2 hm
      obtain ⟨rfl, rfl⟩ : pos = p ∧ e2 = e := by simpa using h
      exact ⟨Nat.le_refl _, hm, fun q h1 h2 => absurd (Nat.lt_of_le_of_lt h1 h2) (Nat.lt_irrefl _)⟩
    · rename_i hm
      have ih := scanFrom_spec h
      refine ⟨by omega, ih.2.1, fun q h1 h2 => ?_⟩
      rcases Nat.eq_or_lt_of_le h1 with h1 | h1
      · exact h1 ▸ hm
      · exact ih.2.2 q h1 h2
termination_by s.length - pos
decreasing_by omega

theorem scanFrom_none_spec {s : List Char} {pos : Nat}
    (h : scanFrom s pos = none) : ∀ q, pos ≤ q → matchAt s q = none := by
  intro q hq
  rcases Nat.lt_or_ge q s.length with hlt | hge
  · rw [scanFrom] at h
    split at h
    · omega
    · rename_i hpos
      split at h
      · exact absurd h (by simp)
      · rename_i hm
        rcases Nat.eq_or_lt_of_le hq with h1 | h1
        · exact h1 ▸ hm
        · exact scanFrom_none_spec h q h1
  · exact matchAt_none_of_ge hge
termination_by s.length - pos
decreasing_by omega

/-- All (non-overlapping, leftmost) matches from position `pos` on:
Python's `finditer` span list. -/
def finditer (s : List Char) (pos : Nat) : List (Nat × Nat) :=
  match h : scanFrom s pos with
  | none => []
  | some (p, e) => (p, e) :: finditer s e
termination_by s.length - pos
decreasing_by
  have hs := scanFrom_spec h
  have := matchAt_bounds hs.2.1
  omega

/-! ## Pointwise characterization of `countWhile` -/

theorem takeWhile_get_lt {f : Char → Bool} :
    ∀ (l : List Char) (k : Nat), k < (l.takeWhile f).length →
      ∃ c, l.get? k = some c ∧ f c = true := by
  intro l
  induction l with
  | nil => intro k h; simp at h
  | cons a t ih =>
    intro k h
    by_cases hf : f a
    · rw [List.takeWhile_cons, if_pos hf] at h
      cases k with
      | zero => exact ⟨a, rfl, hf⟩
      | succ m => exact ih m (by simpa using Nat.lt_of_succ_lt_succ h)
    · rw [List.takeWhile_cons, if_neg hf] at h
      simp at h

theorem takeWhile_get_stop {f : Char → Bool} :
    ∀ (l : List Char) (c : Char), l.get? (l.takeWhile f).length = some c →
      f c = false := by
  intro l
  induction l with
  | nil => intro c h; simp at h
  | cons a t ih =>
    intro c h
    by_cases hf : f a
    · rw [List.takeWhile_cons, if_pos hf] at h
      exact ih c (by simpa using h)
    · rw [List.takeWhile_cons, if_neg hf] at h
      simp only [List.length_nil, List.get?] at h
      rw [Option.some_inj.mp h] at hf
      exact Bool.of_not_eq_true hf

theorem takeWhile_length_ge {f : Char → Bool} :
    ∀ (l : List Char) (n : Nat),
      (∀ k, k < n → ∃ c, l.get? k = some c ∧ f c = true) →
      n ≤ (l.takeWhile f).length := by
  intro l
  induction l with
  | nil =>
    intro n h
    cases n with
    | zero => exact Nat.le_refl 0
    | succ m =>
      obtain ⟨c, hc, _⟩ := h 0 (Nat.succ_pos m)
      simp at hc
  | cons a t ih =>
    intro n h
    cases n with
    | zero => exact Nat.zero_le _
    | succ m =>
      obtain ⟨c, hc, hfc⟩ := h 0 (Nat.succ_pos m)
      have ha : c = a := by simpa using hc.symm
      rw [List.takeWhile_cons, if_pos (ha ▸ hfc)]
      have := ih m (fun k hk => by simpa using h (k + 1) (Nat.succ_lt_succ hk))
      simpa using Nat.succ_le_succ this

theorem countWhile_get_lt {f : Char → Bool} {s : List Char} {i k : Nat}
    (h : k < countWhile f s i) : ∃ c, s.get? (i + k) = some c ∧ f c = true := by
  obtain ⟨c, hc, hf⟩ := takeWhile_get_lt (s.drop i) k h
  exact ⟨c, by rw [← lget_drop]; exact hc, hf⟩

theorem countWhile_get_stop {f : Char → Bool} {s : List Char} {i : Nat} {c : Char}
    (h : s.get? (i + countWhile f s i) = some c) : f c = false :=
  takeWhile_get_stop (s.drop i) c (by rw [lget_drop]; exact h)

theorem countWhile_ge {f : Char → Bool} {s : List Char} {i n : Nat}
    (h : ∀ k, k < n → ∃ c, s.get? (i + k) = some c ∧ f c = true) :
    n ≤ countWhile f s i :=
  takeWhile_length_ge (s.drop i) n (fun k hk => by rw [lget_drop]; exact h k hk)

theorem countWhile_eq {f : Char → Bool} {s : List Char} {i n : Nat}
    (h1 : ∀ k, k < n → ∃ c, s.get? (i + k) = some c ∧ f c = true)
    (h2 : ∀ c, s.get? (i + n) = some c → f c = false) :
    countWhile f s i = n := by
  have hge := countWhile_ge h1
  rcases Nat.eq_or_lt_of_le hge with h | h
  · exact h.symm
  · obtain ⟨c, hc, hf⟩ := countWhile_get_lt h
    rw [h2 c hc] at hf
    exact absurd hf (by simp)

/-! ## Pointwise characterization of a successful match

`HSW t p a l` lists exactly the character conditions under which the
hand-compiled matcher succeeds at `p` (the row group never fails, so only the
header and separator lines matter): header run of length `a`, closing pipe and
newline, separator opening pipe, `l` separator-class characters, separator
closing pipe and newline. -/
structure HSW (t : List Char) (p a l : Nat) : Prop where
  pipe0 : t.get? p = some '|'
  a2 : 2 ≤ a
  hdr : ∀ i, 1 ≤ i → i < a → ∃ c, t.get? (p + i) = some c ∧ isNotNL c = true
  hclose : t.get? (p + a) = some '|'
  hnl : t.get? (p + a + 1) = some '\n'
  spipe : t.get? (p + a + 2) = some '|'
  l1 : 1 ≤ l
  sep : ∀ i, 1 ≤ i → i ≤ l → ∃ c, t.get? (p + a + 2 + i) = some c ∧ sepD c = true
  sclose : t.get? (p + a + 3 + l) = some '|'
  snl : t.get? (p + a + 4 + l) = some '\n'

/-- Some match succeeds at `p`. -/
def HS (t : List Char) (p : Nat) : Prop := ∃ a l, HSW t p a l

theorem findSepEnd_isSome {s : List Char} {q0 l : Nat} :
    ∀ {b : Nat}, 1 ≤ l → l ≤ b → s.get? (q0 + 1 + l) = some '|' →
      s.get? (q0 + 2 + l) = some '\n' → (findSepEnd s q0 b).isSome := by
  intro b
  induction b with
  | zero => intro h1 h2 _ _; omega
  | succ b ih =>
    intro h1 h2 h3 h4
    unfold findSepEnd
    split
    · simp
    · rename_i hcond
      rcases Nat.eq_or_lt_of_le h2 with he | hlt
      · exact absurd ⟨he ▸ h3, he ▸ h4⟩ hcond
      · exact ih h1 (Nat.le_of_lt_succ hlt) h3 h4

theorem matchAt_isSome_of_HSW {t : List Char} {p a l : Nat} (hw : HSW t p a l) :
    (matchAt t p).isSome := by
  have hcw : countWhile isNotNL t (p + 1) = a := by
    apply countWhile_eq
    · intro k hk
      rcases Nat.lt_or_ge (k + 1) a with hlt | hge
      · obtain ⟨c, hc, hf⟩ := hw.hdr (k + 1) (by omega) hlt
        exact ⟨c, by rw [show p + 1 + k = p + (k + 1) by omega]; exact hc, hf⟩
      · refine ⟨'|', ?_, rfl⟩
        rw [show p + 1 + k = p + a by omega]
        exact hw.hclose
    · intro c hc
      rw [show p + 1 + a = p + a + 1 by omega] at hc
      rw [← Option.some_inj.mp (hw.hnl.symm.trans hc)]
      rfl
  unfold matchAt
  rw [if_pos hw.pipe0, hcw]
  unfold matchAfterPipe
  rw [if_pos ⟨hw.a2, hw.hclose, hw.hnl⟩, if_pos hw.spipe]
  have hb : l ≤ countWhile sepD t (p + a + 3) := by
    apply countWhile_ge
    intro k hk
    obtain ⟨c, hc, hf⟩ := hw.sep (k + 1) (by omega) (by omega)
    exact ⟨c, by rw [show p + a + 3 + k = p + a + 2 + (k + 1) by omega]; exact hc, hf⟩
  have hfse := @findSepEnd_isSome t (p + a + 2) l (countWhile sepD t (p + a + 3)) hw.l1 hb
    (by rw [show p + a + 2 + 1 + l = p + a + 3 + l by omega]; exact hw.sclose)
    (by rw [show p + a + 2 + 2 + l = p + a + 4 + l by omega]; exact hw.snl)
  obtain ⟨l2, hl2⟩ := Option.isSome_iff_exists.mp hfse
  rw [hl2]
  simp

theorem HSW_of_matchAt {s : List Char} {p e : Nat} (h : matchAt s p = some e) :
    ∃ a l, HSW s p a l ∧ p + a + 4 + l < e := by
  unfold matchAt at h
  split at h
  · rename_i hpipe
    unfold matchAfterPipe at h
    split at h
    · rename_i hcond
      obtain ⟨ha2, hclose, hnl⟩ := hcond
      split at h
      · rename_i hspipe
        split at h
        · exact absurd h (by simp)
        · rename_i l hfse
          cases h
          have hs := findSepEnd_spec hfse
          refine ⟨countWhile isNotNL s (p + 1), l, ⟨hpipe, ha2, ?_, hclose, hnl, hspipe, hs.1, ?_, ?_, ?_⟩, ?_⟩
          · intro i hi1 hia
            obtain ⟨c, hc, hf⟩ := countWhile_get_lt (f := isNotNL) (s := s) (i := p + 1) (k := i - 1) (by omega)
            exact ⟨c, by rw [show p + i = p + 1 + (i - 1) by omega]; exact hc, hf⟩
          · intro i hi1 hil
            obtain ⟨c, hc, hf⟩ := countWhile_get_lt (f := sepD) (s := s)
              (i := p + countWhile isNotNL s (p + 1) + 3) (k := i - 1) (by omega)
            refine ⟨c, ?_, hf⟩
            rw [show p + countWhile isNotNL s (p + 1) + 2 + i
                  = p + countWhile isNotNL s (p + 1) + 3 + (i - 1) by omega]
            exact hc
          · rw [show p + countWhile isNotNL s (p + 1) + 3 + l
                  = p + countWhile isNotNL s (p + 1) + 2 + 1 + l by omega]
            exact hs.2.2.1
          · rw [show p + countWhile isNotNL s (p + 1) + 4 + l
                  = p + countWhile isNotNL s (p + 1) + 2 + 2 + l by omega]
            exact hs.2.2.2
          · have := rowsEnd_ge s (p + countWhile isNotNL s (p + 1) + 2 + l + 3)
            omega
      · exact absurd h (by simp)
    · exact absurd h (by simp)
  · exact absurd h (by simp)

theorem HS_iff_matchAt {t : List Char} {p : Nat} :
    HS t p ↔ (matchAt t p).isSome := by
  constructor
  · rintro ⟨a, l, hw⟩
    exact matchAt_isSome_of_HSW hw
  · intro h
    obtain ⟨e, he⟩ := Option.isSome_iff_exists.mp h
    obtain ⟨a, l, hw, _⟩ := HSW_of_matchAt he
    exact ⟨a, l, hw⟩

/-! ## Invariants of the `finditer` span list -/

/-- Spans are ordered, non-overlapping, and within the string. -/
def SpansOK (s : List Char) : Nat → List (Nat × Nat) → Prop
  | _, [] => True
  | pos, (a, b) :: rest => pos ≤ a ∧ a < b ∧ b ≤ s.length ∧ SpansOK s b rest

/-- The scan skipped no match: positions between consecutive spans, and after
the last span, match nothing. -/
def NoMatchBetween (s : List Char) : Nat → List (Nat × Nat) → Prop
  | pos, [] => ∀ q, pos ≤ q → matchAt s q = none
  | pos, (a, b) :: rest =>
      (∀ q, pos ≤ q → q < a → matchAt s q = none) ∧ NoMatchBetween s b rest

/-- Every listed span is a real match. -/
def MatchesAll (s : List Char) : List (Nat × Nat) → Prop
  | [] => True
  | (a, b) :: rest => matchAt s a = some b ∧ MatchesAll s rest

theorem finditer_eq_of_none {s : List Char} {pos : Nat}
    (h : scanFrom s pos = none) : finditer s pos = [] := by
  rw [finditer, h]

theorem finditer_eq_of_some {s : List Char} {pos p e : Nat}
    (h : scanFrom s pos = some (p, e)) :
    finditer s pos = (p, e) :: finditer s e := by
  rw [finditer, h]

theorem finditer_spansOK (s : List Char) (pos : Nat) :
    SpansOK s pos (finditer s pos) := by
  cases h : scanFrom s pos with
  | none => rw [finditer_eq_of_none h]; trivial
  | some pe =>
    obtain ⟨p, e⟩ := pe
    rw [finditer_eq_of_some h]
    have hs := scanFrom_spec h
    have hb := matchAt_bounds hs.2.1
    exact ⟨hs.1, hb.1, hb.2, finditer_spansOK s e⟩
termination_by s.length - pos
decreasing_by
  have hs := scanFrom_spec h
  have hb := matchAt_bounds hs.2.1
  omega

theorem finditer_noMatchBetween (s : List Char) (pos : Nat) :
    NoMatchBetween s pos (finditer s pos) := by
  cases h : scanFrom s pos with
  | none =>
    rw [finditer_eq_of_none h]
    exact scanFrom_none_spec h
  | some pe =>
    obtain ⟨p, e⟩ := pe
    rw [finditer_eq_of_some h]
    have hs := scanFrom_spec h
    exact ⟨fun q h1 h2 => hs.2.2 q h1 h2, finditer_noMatchBetween s e⟩
termination_by s.length - pos
decreasing_by
  have hs := scanFrom_spec h
  have hb := matchAt_bounds hs.2.1
  omega

theorem finditer_matchesAll (s : List Char) (pos : Nat) :
    MatchesAll s (finditer s pos) := by
  cases h : scanFrom s pos with
  | none => rw [finditer_eq_of_none h]; trivial
  | some pe =>
    obtain ⟨p, e⟩ := pe
    rw [finditer_eq_of_some h]
    have hs := scanFrom_spec h
    exact ⟨hs.2.1, finditer_matchesAll s e⟩
termination_by s.length - pos
decreasing_by
  have hs := scanFrom_spec h
  have hb := matchAt_bounds hs.2.1
  omega

/-! ## `parse_markdown_table` -/

/-- Python `str.strip()` with no argument: remove leading and trailing
whitespace (`str.isspace` characters). -/
def pyStrip (l : List Char) : List Char :=
  ((l.dropWhile isPySpace).reverse.dropWhile isPySpace).reverse

/-- Python `str.split(sep)` for a one-character separator. -/
def splitOnChar (sep : Char) : List Char → List (List Char)
  | [] => [[]]
  | c :: rest =>
    match splitOnChar sep rest with
    | [] => if c == sep then [[], [c]] else [[c]]
    | h :: t => if c == sep then [] :: h :: t else (c :: h) :: t

/-- Split the header or row line on `'|'`, strip each field, and keep the
truthy (nonempty) ones: `[x.strip() for x in line.split('|') if x.strip()]`. -/
def splitCells (line : List Char) : List (List Char) :=
  ((splitOnChar '|' line).map pyStrip).filter (fun h => !h.isEmpty)

/-- `parse_markdown_table(content)`: search for the first table match, then
split group 1 (the header line interior) and the lines of group 3 (the row
block) into stripped cells.  `None` becomes `none`; the returned dict (always
truthy in Python) becomes `some`. -/
def parseMarkdownTable (content : List Char) :
    Option (List (List Char) × List (List (List Char))) :=
  match scanFrom content 0 with
  | none => none
  | some (p, e) =>
    let a := countWhile isNotNL content (p + 1)
    let l := (findSepEnd content (p + a + 2) (countWhile sepD content (p + a + 3))).getD 0
    let headers := splitCells (pyStrip (extract content (p + 1) (p + a)))
    let rowsText := pyStrip (extract content (p + a + 2 + l + 3) e)
    let rows := ((splitOnChar '\n' rowsText).filter
        (fun line => !(pyStrip line).isEmpty)).map splitCells
    some (headers, (rows.filter (fun r => !r.isEmpty)))

/-! ## The splicer of `ocr_and_chat_endpoint` -/

/-- Decimal digit character, `str(d)` for `0 ≤ d ≤ 9`. -/
def digitChar (d : Nat) : Char :=
  match d with
  | 0 => '0' | 1 => '1' | 2 => '2' | 3 => '3' | 4 => '4'
  | 5 => '5' | 6 => '6' | 7 => '7' | 8 => '8' | _ => '9'

/-- Decimal digits with structural fuel (`n + 1` steps always suffice, the
quotient shrinks every step). -/
def natDigitsAux : Nat → Nat → List Char
  | 0, _ => []
  | fuel + 1, n =>
    if n < 10 then [digitChar n]
    else natDigitsAux fuel (n / 10) ++ [digitChar (n % 10)]

/-- Decimal digits of `n`, Python `str(n)` for a nonnegative int. -/
def natDigits (n : Nat) : List Char := natDigitsAux (n + 1) n

/-- The token `f"[TABLE_{i}]"`. -/
def placeholder (i : Nat) : List Char :=
  '[' :: 'T' :: 'A' :: 'B' :: 'L' :: 'E' :: '_' :: (natDigits i ++ [']'])

/-- The `ocr_tables` list: `(index, start, end)` for each regex match whose
parsed table is truthy (a two-key dict is always truthy, so the only way the
entry is skipped is `parse_markdown_table` returning `None`). -/
def ocrTables (s : List Char) : List (Nat × Nat × Nat) :=
  (((finditer s 0).enum.filter
      (fun ie => (parseMarkdownTable (extract s ie.2.1 ie.2.2)).isSome)).map
    (fun ie => (ie.1, ie.2.1, ie.2.2)))

/-- The splicing loop: `for table in reversed(ocr_tables): remaining_text =
remaining_text[:start] + placeholder + remaining_text[end:]`, starting from
the document text.  Iterating the list in reverse with an accumulator is a
right fold over the list. -/
def spliceRemainingText (s : List Char) : List Char :=
  (ocrTables s).foldr
    (fun t acc => acc.take t.2.1 ++ placeholder t.1 ++ acc.drop t.2.2) s

/-- Reference shape of the spliced output: the non-table segments of the
original text in order, with `[TABLE_idx]` tokens in place of the table
spans, indices counting up from `idx`. -/
def segsFrom (s : List Char) : Nat → Nat → List (Nat × Nat) → List Char
  | pos, _, [] => s.drop pos
  | pos, idx, (a, b) :: rest =>
      extract s pos a ++ placeholder idx ++ segsFrom s b (idx + 1) rest

/-! ## The spliced text is the segment/placeholder interleaving (C1) -/

theorem HSW_shift {t u : List Char} {p q a l : Nat}
    (hk : ∀ k, k ≤ a + 4 + l → t.get? (p + k) = u.get? (q + k))
    (hw : HSW t p a l) : HSW u q a l := by
  refine ⟨?_, hw.a2, ?_, ?_, ?_, ?_, hw.l1, ?_, ?_, ?_⟩
  · have h := hk 0 (by omega)
    simp only [Nat.add_zero] at h
    rw [← h]; exact hw.pipe0
  · intro i h1 h2
    have h := hk i (by omega)
    rw [← h]; exact hw.hdr i h1 h2
  · have h := hk a (by omega)
    rw [show q + a = q + a by rfl, ← h]; exact hw.hclose
  · have h := hk (a + 1) (by omega)
    rw [show q + a + 1 = q + (a + 1) by omega, ← h,
      show p + (a + 1) = p + a + 1 by omega]
    exact hw.hnl
  · have h := hk (a + 2) (by omega)
    rw [show q + a + 2 = q + (a + 2) by omega, ← h,
      show p + (a + 2) = p + a + 2 by omega]
    exact hw.spipe
  · intro i h1 h2
    have h := hk (a + 2 + i) (by omega)
    rw [show q + a + 2 + i = q + (a + 2 + i) by omega, ← h,
      show p + (a + 2 + i) = p + a + 2 + i by omega]
    exact hw.sep i h1 h2
  · have h := hk (a + 3 + l) (by omega)
    rw [show q + a + 3 + l = q + (a + 3 + l) by omega, ← h,
      show p + (a + 3 + l) = p + a + 3 + l by omega]
    exact hw.sclose
  · have h := hk (a + 4 + l) (by omega)
    rw [show q + a + 4 + l = q + (a + 4 + l) by omega, ← h,
      show p + (a + 4 + l) = p + a + 4 + l by omega]
    exact hw.snl

theorem scanFrom_zero {u : List Char} {e : Nat} (h : matchAt u 0 = some e) :
    scanFrom u 0 = some (0, e) := by
  have hlen : 0 < u.length := by
    by_contra hle
    rw [matchAt_none_of_ge (by omega)] at h
    exact absurd h (by simp)
  rw [scanFrom, if_neg (by omega), h]

/-- Every regex match parses to a table dict: `parse_markdown_table` re-runs
the same regex on the extracted span and finds a match at position 0. -/
theorem parse_isSome_of_match {s : List Char} {p e : Nat}
    (h : matchAt s p = some e) :
    (parseMarkdownTable (extract s p e)).isSome := by
  obtain ⟨a, l, hw, hbound⟩ := HSW_of_matchAt h
  have hb := matchAt_bounds h
  have hshift : ∀ k, k ≤ a + 4 + l → s.get? (p + k) = (extract s p e).get? (0 + k) := by
    intro k hk
    rw [Nat.zero_add, extract_get? (by omega)]
  have hw2 : HSW (extract s p e) 0 a l := HSW_shift hshift hw
  obtain ⟨e2, he2⟩ := Option.isSome_iff_exists.mp (matchAt_isSome_of_HSW hw2)
  unfold parseMarkdownTable
  rw [scanFrom_zero he2]
  simp

theorem snd_mem_of_mem_enumFrom {α : Type} :
    ∀ {l : List α} {n : Nat} {x : Nat × α}, x ∈ l.enumFrom n → x.2 ∈ l := by
  intro l
  induction l with
  | nil => intro n x h; simp [List.enumFrom] at h
  | cons a t ih =>
    intro n x h
    rw [List.enumFrom] at h
    rcases List.mem_cons.mp h with h | h
    · rw [h]; exact List.mem_cons_self _ _
    · exact List.mem_cons_of_mem _ (ih h)

theorem matchesAll_mem {s : List Char} :
    ∀ {ms : List (Nat × Nat)} {x : Nat × Nat}, MatchesAll s ms → x ∈ ms →
      matchAt s x.1 = some x.2 := by
  intro ms
  induction ms with
  | nil => intro x _ h; simp at h
  | cons hd tl ih =>
    intro x hma hmem
    obtain ⟨p, e⟩ := hd
    rcases List.mem_cons.mp hmem with h | h
    · rw [h]; exact hma.1
    · exact ih hma.2 h

theorem ocrTables_eq (s : List Char) :
    ocrTables s = (finditer s 0).enum.map (fun ie => (ie.1, ie.2.1, ie.2.2)) := by
  unfold ocrTables
  congr 1
  apply List.filter_eq_self.mpr
  intro ie hie
  have hmem : ie.2 ∈ finditer s 0 := snd_mem_of_mem_enumFrom hie
  have hma := matchesAll_mem (finditer_matchesAll s 0) hmem
  simpa using parse_isSome_of_match hma

theorem foldr_splice (s : List Char) :
    ∀ (spans : List (Nat × Nat)) (pos idx : Nat), SpansOK s pos spans →
      (spans.enumFrom idx).foldr
        (fun ie acc => acc.take ie.2.1 ++ placeholder ie.1 ++ acc.drop ie.2.2) s
      = s.take pos ++ segsFrom s pos idx spans := by
  intro spans
  induction spans with
  | nil =>
    intro pos idx _
    rw [show segsFrom s pos idx [] = s.drop pos from rfl]
    simp [List.enumFrom]
  | cons hd tl ih =>
    intro pos idx hok
    obtain ⟨σ, e⟩ := hd
    obtain ⟨h1, h2, h3, h4⟩ := hok
    rw [List.enumFrom, List.foldr_cons, ih e (idx + 1) h4]
    have hlen : (s.take e).length = e := by rw [List.length_take]; omega
    have htake : (s.take e ++ segsFrom s e (idx + 1) tl).take σ = s.take σ := by
      rw [List.take_append_of_le_length (by omega), List.take_take,
        min_eq_left (by omega)]
    have hdrop : (s.take e ++ segsFrom s e (idx + 1) tl).drop e
        = segsFrom s e (idx + 1) tl := by
      have h0 := List.drop_left (s.take e) (segsFrom s e (idx + 1) tl)
      rw [hlen] at h0
      exact h0
    show (s.take e ++ segsFrom s e (idx + 1) tl).take σ ++ placeholder idx
        ++ (s.take e ++ segsFrom s e (idx + 1) tl).drop e
      = s.take pos ++ segsFrom s pos idx ((σ, e) :: tl)
    rw [htake, hdrop,
      show segsFrom s pos idx ((σ, e) :: tl)
        = extract s pos σ ++ placeholder idx ++ segsFrom s e (idx + 1) tl from rfl]
    have hplus : s.take pos ++ extract s pos σ = s.take σ := by
      unfold extract
      rw [← List.take_add, show pos + (σ - pos) = σ by omega]
    rw [← List.append_assoc, ← List.append_assoc, hplus]

/-- The splicing loop rewrites the document into its non-table segments
interleaved with the placeholders, one per regex match, indices in discovery
order. -/
theorem splice_eq_segsFrom (s : List Char) :
    spliceRemainingText s = segsFrom s 0 0 (finditer s 0) := by
  unfold spliceRemainingText
  rw [ocrTables_eq, List.foldr_map]
  have h := foldr_splice s (finditer s 0) 0 0 (finditer_spansOK s 0)
  rw [show (finditer s 0).enum = (finditer s 0).enumFrom 0 from rfl]
  simpa using h

/-! ## Placeholder characters never take part in a match (toward C2) -/

theorem digitChar_range (d : Nat) :
    48 ≤ (digitChar d).toNat ∧ (digitChar d).toNat ≤ 57 := by
  rcases d with _|_|_|_|_|_|_|_|_|_|d
  all_goals first
    | exact ⟨by decide, by decide⟩
    | exact (by decide :
        48 ≤ ('9' : Char).toNat ∧ ('9' : Char).toNat ≤ 57)

theorem natDigitsAux_range :
    ∀ (fuel : Nat) {n : Nat} {c : Char}, c ∈ natDigitsAux fuel n →
      48 ≤ c.toNat ∧ c.toNat ≤ 57 := by
  intro fuel
  induction fuel with
  | zero => intro n c hc; simp [natDigitsAux] at hc
  | succ fuel ih =>
    intro n c hc
    rw [natDigitsAux] at hc
    split at hc
    · simp only [List.mem_singleton] at hc
      subst hc
      exact digitChar_range n
    · rcases List.mem_append.mp hc with h | h
      · exact ih h
      · simp only [List.mem_singleton] at h
        subst h
        exact digitChar_range (n % 10)

theorem natDigits_range {n : Nat} {c : Char} (h : c ∈ natDigits n) :
    48 ≤ c.toNat ∧ c.toNat ≤ 57 :=
  natDigitsAux_range (n + 1) h

theorem range_not_special {c : Char} (h1 : 48 ≤ c.toNat) (h2 : c.toNat ≤ 57) :
    c ≠ '|' ∧ c ≠ '\n' ∧ sepD c = false := by
  refine ⟨?_, ?_, ?_⟩
  · intro h; subst h; exact absurd h2 (by decide)
  · intro h; subst h; exact absurd h1 (by decide)
  · unfold sepD
    have hd : (c == '-') = false := by
      rw [beq_eq_false_iff_ne]
      intro h; subst h; exact absurd h1 (by decide)
    have hp : (c == '|') = false := by
      rw [beq_eq_false_iff_ne]
      intro h; subst h; exact absurd h2 (by decide)
    rw [hd, hp]
    simp only [Bool.false_or]
    unfold isPySpace
    simp only [Bool.or_eq_false_iff, Bool.and_eq_false_iff, decide_eq_false_iff_not]
    omega

theorem placeholder_char {i : Nat} {c : Char} (h : c ∈ placeholder i) :
    c ≠ '|' ∧ c ≠ '\n' ∧ sepD c = false := by
  unfold placeholder at h
  simp only [List.mem_cons, List.mem_append, List.mem_singleton,
    List.not_mem_nil, or_false] at h
  rcases h with h | h | h | h | h | h | h | h | h
  · subst h; exact ⟨by decide, by decide, by decide⟩
  · subst h; exact ⟨by decide, by decide, by decide⟩
  · subst h; exact ⟨by decide, by decide, by decide⟩
  · subst h; exact ⟨by decide, by decide, by decide⟩
  · subst h; exact ⟨by decide, by decide, by decide⟩
  · subst h; exact ⟨by decide, by decide, by decide⟩
  · subst h; exact ⟨by decide, by decide, by decide⟩
  · obtain ⟨h1, h2⟩ := natDigits_range h
    exact range_not_special h1 h2
  · subst h; exact ⟨by decide, by decide, by decide⟩

theorem placeholder_length_pos (i : Nat) : 0 < (placeholder i).length := by
  unfold placeholder
  simp

/-! ## No match survives in the spliced text (C2)

A match needs a header line `|...|` and below it a separator line built only
from `[-|\s]` characters.  Placeholder characters are none of those, so a
match in the spliced text would have to live inside a single preserved
segment (contradicting the completeness of the scan over the original text)
or start a header left of a placeholder on an unbroken line (in which case
the same position already started a match in the original text, again a
contradiction). -/
theorem noHS_segsFrom (s : List Char) :
    ∀ (spans : List (Nat × Nat)) (pos idx p : Nat),
      SpansOK s pos spans → NoMatchBetween s pos spans → MatchesAll s spans →
      ¬ HS (segsFrom s pos idx spans) p := by
  intro spans
  induction spans with
  | nil =>
    intro pos idx p _ hnm _ hhs
    obtain ⟨a, l, hw⟩ := hhs
    have hshift : ∀ k, k ≤ a + 4 + l →
        (s.drop pos).get? (p + k) = s.get? ((pos + p) + k) := by
      intro k _
      rw [lget_drop]
      congr 1
      omega
    have hm := matchAt_isSome_of_HSW (HSW_shift hshift hw)
    rw [hnm (pos + p) (by omega)] at hm
    exact absurd hm (by simp)
  | cons hd tl ih =>
    intro pos idx p hok hnm hma hhs
    obtain ⟨σ, e⟩ := hd
    obtain ⟨hle, hlt, helen, hok2⟩ := hok
    obtain ⟨hnm1, hnm2⟩ := hnm
    obtain ⟨hmσ, hma2⟩ := hma
    obtain ⟨a, l, hw⟩ := hhs
    rw [show segsFrom s pos idx ((σ, e) :: tl)
        = extract s pos σ ++ placeholder idx ++ segsFrom s e (idx + 1) tl from rfl,
      List.append_assoc] at hw
    have hXlen : (extract s pos σ).length = σ - pos := extract_length hle (by omega)
    have hPpos : 0 < (placeholder idx).length := placeholder_length_pos idx
    have hget1 : ∀ n, n < σ - pos →
        (extract s pos σ ++ (placeholder idx ++ segsFrom s e (idx + 1) tl)).get? n
          = s.get? (pos + n) := by
      intro n hn
      rw [lget_append_left (by omega), extract_get? hn]
    have hget2 : ∀ n, σ - pos ≤ n → n < (σ - pos) + (placeholder idx).length →
        ∃ c, (extract s pos σ ++ (placeholder idx ++ segsFrom s e (idx + 1) tl)).get? n
          = some c ∧ c ∈ placeholder idx := by
      intro n hn1 hn2
      rw [lget_append_right (by omega), lget_append_left (by omega)]
      have hidx : n - (extract s pos σ).length < (placeholder idx).length := by omega
      refine ⟨(placeholder idx).get ⟨n - (extract s pos σ).length, hidx⟩, ?_, ?_⟩
      · exact List.get?_eq_get hidx
      · exact List.get_mem _ _ _
    have hget3 : ∀ n, (σ - pos) + (placeholder idx).length ≤ n →
        (extract s pos σ ++ (placeholder idx ++ segsFrom s e (idx + 1) tl)).get? n
          = (segsFrom s e (idx + 1) tl).get? (n - ((σ - pos) + (placeholder idx).length)) := by
      intro n hn
      rw [lget_append_right (by omega), lget_append_right (by omega)]
      congr 1
      omega
    rcases Nat.lt_or_ge p (σ - pos) with hpX | hpX
    · -- the alleged header starts inside the preserved segment
      have hp0 : s.get? (pos + p) = some '|' := by
        rw [← hget1 p hpX]
        exact hw.pipe0
      rcases Nat.lt_or_ge (p + a + 1) (σ - pos) with hend | hend
      · -- the whole header line is inside the segment
        rcases Nat.eq_or_lt_of_le (show p + a + 2 ≤ σ - pos by omega) with hq0 | hq0
        · -- the separator opening pipe would be the placeholder head
          obtain ⟨c, hc, hcP⟩ := hget2 (p + a + 2) (by omega) (by omega)
          have := Option.some_inj.mp (hc.symm.trans hw.spipe)
          exact absurd this (placeholder_char hcP).1
        · rcases Nat.lt_or_ge (p + a + 4 + l) (σ - pos) with hsend | hsend
          · -- header and separator entirely inside the segment: a match in the
            -- original text where the scan reported none
            have hshift : ∀ k, k ≤ a + 4 + l →
                (extract s pos σ ++ (placeholder idx ++ segsFrom s e (idx + 1) tl)).get? (p + k)
                  = s.get? ((pos + p) + k) := by
              intro k hk
              rw [hget1 (p + k) (by omega)]
              congr 1
              omega
            have hm := matchAt_isSome_of_HSW (HSW_shift hshift hw)
            rw [hnm1 (pos + p) (by omega) (by omega)] at hm
            exact absurd hm (by simp)
          · -- the separator line would cross into the placeholder
            rcases Nat.lt_or_ge ((σ - pos) - (p + a + 2)) (l + 1) with hj | hj
            · obtain ⟨c, hc, hcn⟩ := hw.sep ((σ - pos) - (p + a + 2)) (by omega) (by omega)
              obtain ⟨c2, hc2, hc2P⟩ := hget2 (p + a + 2 + ((σ - pos) - (p + a + 2)))
                (by omega) (by omega)
              have := Option.some_inj.mp (hc.symm.trans hc2)
              rw [this] at hcn
              rw [(placeholder_char hc2P).2.2] at hcn
              exact absurd hcn (by simp)
            · rcases Nat.eq_or_lt_of_le hj with hj2 | hj2
              · obtain ⟨c2, hc2, hc2P⟩ := hget2 (p + a + 3 + l) (by omega) (by omega)
                have := Option.some_inj.mp (hc2.symm.trans hw.sclose)
                exact absurd this (placeholder_char hc2P).1
              · have hj3 : (σ - pos) - (p + a + 2) = l + 2 := by omega
                obtain ⟨c2, hc2, hc2P⟩ := hget2 (p + a + 4 + l) (by omega) (by omega)
                have := Option.some_inj.mp (hc2.symm.trans hw.snl)
                exact absurd this (placeholder_char hc2P).2.1
      · rcases Nat.lt_or_ge (p + a + 1) ((σ - pos) + (placeholder idx).length) with hmid | hmid
        · -- the header newline would be a placeholder character
          obtain ⟨c, hc, hcP⟩ := hget2 (p + a + 1) (by omega) (by omega)
          have := Option.some_inj.mp (hc.symm.trans hw.hnl)
          exact absurd this (placeholder_char hcP).2.1
        · -- the header runs from inside the segment across the placeholder: the
          -- same position started a match in the original text, using the
          -- recorded match at σ as its tail
          obtain ⟨aσ, lσ, hwσ, _⟩ := HSW_of_matchAt hmσ
          have hppσ : pos + p < σ := by omega
          have hXa : σ - pos ≤ p + a := by omega
          have hw2 : HSW s (pos + p) ((σ - (pos + p)) + aσ) lσ := by
            refine ⟨hp0, by have := hwσ.a2; omega, ?_, ?_, ?_, ?_, hwσ.l1, ?_, ?_, ?_⟩
            · intro i hi1 hid
              rcases Nat.lt_trichotomy i (σ - (pos + p)) with hi | hi | hi
              · have hia : i < a := by omega
                obtain ⟨c, hc, hcn⟩ := hw.hdr i hi1 hia
                rw [hget1 (p + i) (by omega)] at hc
                refine ⟨c, ?_, hcn⟩
                rw [show pos + p + i = pos + (p + i) by omega]
                exact hc
              · refine ⟨'|', ?_, by decide⟩
                rw [show pos + p + i = σ by omega]
                exact hwσ.pipe0
              · obtain ⟨c, hc, hcn⟩ := hwσ.hdr (i - (σ - (pos + p))) (by omega) (by omega)
                refine ⟨c, ?_, hcn⟩
                rw [show pos + p + i = σ + (i - (σ - (pos + p))) by omega]
                exact hc
            · rw [show pos + p + ((σ - (pos + p)) + aσ) = σ + aσ by omega]
              exact hwσ.hclose
            · rw [show pos + p + ((σ - (pos + p)) + aσ) + 1 = σ + aσ + 1 by omega]
              exact hwσ.hnl
            · rw [show pos + p + ((σ - (pos + p)) + aσ) + 2 = σ + aσ + 2 by omega]
              exact hwσ.spipe
            · intro i hi1 hil
              obtain ⟨c, hc, hcd⟩ := hwσ.sep i hi1 hil
              refine ⟨c, ?_, hcd⟩
              rw [show pos + p + ((σ - (pos + p)) + aσ) + 2 + i = σ + aσ + 2 + i by omega]
              exact hc
            · rw [show pos + p + ((σ - (pos + p)) + aσ) + 3 + lσ = σ + aσ + 3 + lσ by omega]
              exact hwσ.sclose
            · rw [show pos + p + ((σ - (pos + p)) + aσ) + 4 + lσ = σ + aσ + 4 + lσ by omega]
              exact hwσ.snl
          have hm := matchAt_isSome_of_HSW hw2
          rw [hnm1 (pos + p) (by omega) hppσ] at hm
          exact absurd hm (by simp)
    · rcases Nat.lt_or_ge p ((σ - pos) + (placeholder idx).length) with hpP | hpP
      · -- the alleged header opening pipe would be a placeholder character
        obtain ⟨c, hc, hcP⟩ := hget2 p hpX hpP
        have := Option.some_inj.mp (hc.symm.trans hw.pipe0)
        exact absurd this (placeholder_char hcP).1
      · -- everything happens to the right of the placeholder: recurse
        have hshift : ∀ k, k ≤ a + 4 + l →
            (extract s pos σ ++ (placeholder idx ++ segsFrom s e (idx + 1) tl)).get? (p + k)
              = (segsFrom s e (idx + 1) tl).get?
                  ((p - ((σ - pos) + (placeholder idx).length)) + k) := by
          intro k hk
          rw [hget3 (p + k) (by omega)]
          congr 1
          omega
        exact ih e (idx + 1) (p - ((σ - pos) + (placeholder idx).length))
          hok2 hnm2 hma2 ⟨a, l, HSW_shift hshift hw⟩

theorem scanFrom_none_of_all {t : List Char} (h : ∀ q, matchAt t q = none) :
    ∀ pos, scanFrom t pos = none := by
  intro pos
  rw [scanFrom]
  split
  · rfl
  · rw [h pos]
    exact scanFrom_none_of_all h (pos + 1)
termination_by pos => t.length - pos
decreasing_by
  rename_i hnle
  omega

theorem finditer_nil_of_noMatch {t : List Char} (h : ∀ q, matchAt t q = none) :
    finditer t 0 = [] :=
  finditer_eq_of_none (scanFrom_none_of_all h 0)

/-! ## Upload loop and request validation of `mistralOcr/app.py` -/

/-- `MAX_FILE_SIZE_BYTES_MISTRAL = 50 * 1024 * 1024`. -/
def maxFileSizeBytesMistral : Nat := 50 * 1024 * 1024

/-- Outcome of the upload phase of a request: HTTP-status signal (`0` means
the upload was accepted and processing continues), bytes sitting in the temp
file when the loop ends, and whether the temp file still exists right after
the loop and after the request's cleanup (`finally`) block. -/
structure UploadOutcome where
  status : Nat
  written : Nat
  tempAfterLoop : Bool
  tempAfterRequest : Bool
deriving Repr, DecidableEq

/-- The upload loop of `process_document_endpoint` (and, identically, of
`ocr_and_chat_endpoint`): add the chunk length to the running total, check the
total against the ceiling, and only then write the chunk; on overflow close
and delete the temp file at once and raise a 413.  `fileSize` is the running
total, `written` the bytes already in the temp file; the chunk list is the
sequence of nonempty `file.read` results. -/
def mistralUploadLoop (fileSize written : Nat) : List Nat → UploadOutcome
  | [] => ⟨0, written, true, false⟩
  | c :: rest =>
    if fileSize + c > maxFileSizeBytesMistral then
      ⟨413, written, false, false⟩
    else mistralUploadLoop (fileSize + c) (written + c) rest

def mistralUpload (chunks : List Nat) : UploadOutcome :=
  mistralUploadLoop 0 0 chunks

/-- The successive values of "bytes written to the temp file" after each
write of the loop (the observable trace backing the C9 invariant). -/
def mistralUploadTrace (fileSize written : Nat) : List Nat → List Nat
  | [] => []
  | c :: rest =>
    if fileSize + c > maxFileSizeBytesMistral then []
    else (written + c) :: mistralUploadTrace (fileSize + c) (written + c) rest

/-- Field validation of `chat_with_document_endpoint`: `body.get` yields
`none` for an absent key, and Python `not x` is true for both `None` and the
empty string, so `documentText.getD "" = ""` is exactly the code's
`not document_text`. -/
def chatWithDocumentValidate (documentText userMessage : Option String) :
    Except (Nat × String) (String × String) :=
  if documentText.getD "" = "" then
    Except.error (400, "Missing document_text in request")
  else if userMessage.getD "" = "" then
    Except.error (400, "Missing user_message in request")
  else Except.ok (documentText.getD "", userMessage.getD "")

end MistralOcr

namespace PdfTableExtract

/-- Python `str.splitlines` line-break characters (`\r\n` is handled as a
single break by the splitter below). -/
def isLineBreak (c : Char) : Bool :=
  let n := c.toNat
  n = 10 || n = 13 || n = 11 || n = 12 || n = 28 || n = 29 || n = 30 ||
  n = 0x85 || n = 0x2028 || n = 0x2029

/-- Python `str.splitlines`: `""` gives `[]`, a trailing break adds no empty
final line, `\r\n` is one break.  A break character closes the current line
(the empty list consed on the recursive result); any other character is
prepended to the first line of the recursive result. -/
def pySplitlinesList : List Char → List (List Char)
  | [] => []
  | '\r' :: '\n' :: rest => [] :: pySplitlinesList rest
  | c :: rest =>
    if isLineBreak c then [] :: pySplitlinesList rest
    else
      match pySplitlinesList rest with
      | [] => [[c]]
      | l :: ls => (c :: l) :: ls

/-- `max` of a list of naturals, `0` when empty. -/
def listMax : List Nat → Nat
  | [] => 0
  | x :: t => max x (listMax t)

/-- The per-cell length of `write_df_to_excel`:
`max(len(line) for line in cell_str.splitlines()) if lines else 0`. -/
def maxLineLen (s : String) : Nat :=
  listMax ((pySplitlinesList s.toList).map List.length)

/-- Python `str(n)` for a natural number. -/
def natStr (n : Nat) : String := String.mk (MistralOcr.natDigits n)

/-- `[str(n) for n in range(k)]`, the positional-index label sequence. -/
def idxStrings (k : Nat) : List String :=
  (List.range k).map natStr

/-- `column_max_lengths[k] = max(column_max_lengths.get(k, 0), v)` on an
insertion-ordered dict. -/
def dictUpsert : List (Nat × Nat) → Nat → Nat → List (Nat × Nat)
  | [], k, v => [(k, v)]
  | kv :: rest, k, v =>
    if kv.1 = k then (kv.1, max kv.2 v) :: rest else kv :: dictUpsert rest k v

/-- `min(max((max_length + 2) * 1.2, 8), 70)`: the column width set by
`write_df_to_excel` (the float multiplier 1.2 is modelled exactly as 6/5). -/
def widthFormula (m : Nat) : ℚ :=
  min (max (((m : ℚ) + 2) * (6 / 5)) 8) 70

/-- One worksheet as produced by `write_df_to_excel`: the `sheet.cell(row,
column, value)` calls in order, and the per-column widths set at the end
(dict iteration order). -/
structure SheetData where
  writes : List (Nat × Nat × String)
  widths : List (Nat × ℚ)
deriving Repr, DecidableEq

/-- The `sheet.cell(row=rowIdx, column=c_idx, value=value)` calls of one
`enumerate(..., 1)` loop over a row of cells. -/
def rowWrites (rowIdx : Nat) (cells : List String) : List (Nat × Nat × String) :=
  cells.enum.map (fun jv => (rowIdx, jv.1 + 1, jv.2))

/-- The data-row loop: `for r_idx_offset, row_data in enumerate(...)` writing
at `start_row + r_idx_offset`. -/
def dataWrites (startRow : Nat) (rows : List (List String)) :
    List (Nat × Nat × String) :=
  (rows.enum.map (fun ir => rowWrites (startRow + ir.1) ir.2)).join

/-- `write_df_to_excel(df, sheet)` for a DataFrame whose cells are strings
(the caller `_process_pdf` applies `astype(str)` first; `pd.isna` is false on
strings, so `cell_value` is the cell itself) and whose column labels are
compared via `str(c)` (modelled as the already-stringified labels `cols`):
nothing is written for an empty frame (`df.empty`); a header row is written
iff the labels differ from the positional-index strings; data rows start at
row 2 when a header was written, else at row 1; the longest line of every
written cell feeds `column_max_lengths`. -/
def writeDfToExcel (cols : List String) (rows : List (List String)) : SheetData :=
  if rows.isEmpty || cols.isEmpty then ⟨[], []⟩
  else
    let headerWrites : List (Nat × Nat × String) :=
      if cols = idxStrings cols.length then [] else rowWrites 1 cols
    let startRow : Nat := if cols = idxStrings cols.length then 1 else 2
    let allWrites := headerWrites ++ dataWrites startRow rows
    let colMax := allWrites.foldl
      (fun acc w => dictUpsert acc w.2.1 (maxLineLen w.2.2)) []
    ⟨allWrites, colMax.map (fun km => (km.1, widthFormula km.2))⟩

/-- Lookup of the value written at `(row, column)`: the sheet records the
first (and only) write to a cell. -/
def cellAt (w : List (Nat × Nat × String)) (r c : Nat) : Option String :=
  (w.find? (fun t => t.1 == r && t.2.1 == c)).map (fun t => t.2.2)

/-- The specific substring replacement `x.replace('\\n', '\n')` of
`_process_pdf`, compiled for its two-character pattern: scan left to right,
turning each literal backslash-n pair into a newline. -/
def convEscapedNL : List Char → List Char
  | [] => []
  | '\\' :: 'n' :: rest => '\n' :: convEscapedNL rest
  | c :: rest => c :: convEscapedNL rest

/-- The cell cleaning of `_process_pdf` (applied to data cells, not to the
column labels): `astype(str)` (cells are modelled as strings already), then
`df.replace('None', '')` and `df.replace('nan', '')` (whole-cell matches),
then the element-wise `x.replace('\\n', '\n')`. -/
def cleanCell (s : String) : String :=
  let s1 := if s = "None" then "" else s
  let s2 := if s1 = "nan" then "" else s1
  String.mk (convEscapedNL s2.toList)

/-- `f"Page_{page_num}-Table_{table_num}"`. -/
def sheetTitleBase (pageNum tableNum : Nat) : String :=
  "Page_" ++ natStr pageNum ++ "-Table_" ++ natStr tableNum

/-- The `while sheet_title in workbook.sheetnames` suffixing loop.  The fuel
`existing.length + 1` suffices: the candidates tried are pairwise distinct,
so one of the first `existing.length + 1` is free. -/
def uniqueTitleAux (existing : List String) (base : String) : Nat → Nat → String
  | 0, counter => base ++ "_" ++ natStr counter
  | fuel + 1, counter =>
    let cand := base ++ "_" ++ natStr counter
    if cand ∈ existing then uniqueTitleAux existing base fuel (counter + 1)
    else cand

def uniqueTitle (existing : List String) (base : String) : String :=
  if base ∈ existing then uniqueTitleAux existing base (existing.length + 1) 1
  else base

/-- One page's inner loop of `_process_pdf`: skip a table when the formatter
returned no structure (`none`) or an empty frame, otherwise clean the cells,
pick a unique sheet title and write the sheet. -/
def processTables (pageNum : Nat) :
    List (String × SheetData) → Nat →
    List (Option (List String × List (List String))) → List (String × SheetData)
  | acc, _, [] => acc
  | acc, tableNum, t :: rest =>
    match t with
    | none => processTables pageNum acc (tableNum + 1) rest
    | some (cols, rows) =>
      if rows.isEmpty || cols.isEmpty then
        processTables pageNum acc (tableNum + 1) rest
      else
        let title := uniqueTitle (acc.map (fun s => s.1))
          (sheetTitleBase pageNum tableNum)
        processTables pageNum
          (acc ++ [(title, writeDfToExcel cols (rows.map (List.map cleanCell)))])
          (tableNum + 1) rest

def processPages :
    List (String × SheetData) → Nat →
    List (List (Option (List String × List (List String)))) →
    List (String × SheetData)
  | acc, _, [] => acc
  | acc, pageNum, pg :: rest =>
    processPages (processTables pageNum acc 1 pg) (pageNum + 1) rest

/-- `_process_pdf` from the point where the external detector/formatter
output is in hand: one `Option` table structure per detected region per page
(`none` models a region the formatter could not structure).  The default
sheet is removed up front, so the workbook starts empty; if no table produced
a sheet, a placeholder sheet `"No Tables Found"` is created before saving. -/
def processPdf
    (pages : List (List (Option (List String × List (List String))))) :
    List (String × SheetData) :=
  let sheets := processPages [] 1 pages
  if sheets.isEmpty then [("No Tables Found", ⟨[], []⟩)] else sheets

/-- `MAX_FILE_SIZE_MB = 25` of `extract_tables`. -/
def maxFileSizeMBPdf : Nat := 25

/-- The upload loop of `extract_tables`: every chunk is written with no check
inside the loop; the size test `file_size_mb > 25` happens only after the
whole file is on disk, and the temp file is removed in the `finally` block. -/
def pdfUpload (chunks : List Nat) : MistralOcr.UploadOutcome :=
  let fileSize := chunks.sum
  let fileSizeMB : ℚ := (fileSize : ℚ) / (1024 * 1024)
  if fileSizeMB > (maxFileSizeMBPdf : ℚ) then
    ⟨413, fileSize, true, false⟩
  else ⟨0, fileSize, true, false⟩

/-! ## Locating written cells -/

theorem ljoin_cons {α : Type} (x : List α) (l : List (List α)) :
    (x :: l).join = x ++ l.join := rfl

theorem find?_enumRow_hit (row : Nat) :
    ∀ (cells : List String) (k j : Nat) (v : String), cells.get? j = some v →
      ((cells.enumFrom k).map (fun jv => (row, jv.1 + 1, jv.2))).find?
        (fun t => t.1 == row && t.2.1 == k + j + 1) = some (row, k + j + 1, v) := by
  intro cells
  induction cells with
  | nil => intro k j v h; simp at h
  | cons c t ih =>
    intro k j v h
    cases j with
    | zero =>
      obtain rfl : c = v := by simpa using h
      rw [List.enumFrom, List.map_cons]
      rw [List.find?_cons_of_pos _ (by simp)]
    | succ j2 =>
      rw [List.enumFrom, List.map_cons, List.find?_cons_of_neg _ (by simp)]
      have h2 : k + 1 + j2 + 1 = k + (j2 + 1) + 1 := by omega
      rw [← h2]
      exact ih (k + 1) j2 v h

theorem find?_enumRow_none {row r c : Nat} (hr : row ≠ r) :
    ∀ (cells : List String) (k : Nat),
      ((cells.enumFrom k).map (fun jv => (row, jv.1 + 1, jv.2))).find?
        (fun t => t.1 == r && t.2.1 == c) = none := by
  intro cells k
  apply List.find?_eq_none.mpr
  intro x hx
  obtain ⟨jv, _, rfl⟩ := List.mem_map.mp hx
  simp only [Bool.and_eq_true, beq_iff_eq, not_and]
  intro h1
  exact absurd h1 hr

theorem rowWrites_eq_enumFrom (rowIdx : Nat) (cells : List String) :
    rowWrites rowIdx cells
      = (cells.enumFrom 0).map (fun jv => (rowIdx, jv.1 + 1, jv.2)) := rfl

theorem find?_dataWrites_hit (startRow : Nat) :
    ∀ (rows : List (List String)) (i0 i : Nat) (r : List String),
      rows.get? i = some r → ∀ (j : Nat) (v : String), r.get? j = some v →
      (((rows.enumFrom i0).map (fun ir => rowWrites (startRow + ir.1) ir.2)).join).find?
        (fun t => t.1 == startRow + (i0 + i) && t.2.1 == j + 1)
      = some (startRow + (i0 + i), j + 1, v) := by
  intro rows
  induction rows with
  | nil => intro i0 i r h; simp at h
  | cons r0 rest ih =>
    intro i0 i r h j v hv
    rw [List.enumFrom, List.map_cons, ljoin_cons, List.find?_append]
    dsimp only
    cases i with
    | zero =>
      obtain rfl : r0 = r := by simpa using h
      rw [rowWrites_eq_enumFrom]
      simp only [Nat.add_zero]
      have hh := find?_enumRow_hit (startRow + i0) r0 0 j v hv
      simp only [Nat.zero_add] at hh
      rw [hh]
      rfl
    | succ i2 =>
      rw [rowWrites_eq_enumFrom,
        find?_enumRow_none (show startRow + i0 ≠ startRow + (i0 + (i2 + 1)) by omega)]
      have hrec := ih (i0 + 1) i2 r (by simpa using h) j v hv
      simp only [show i0 + 1 + i2 = i0 + (i2 + 1) from by omega] at hrec
      rw [Option.none_or]
      exact hrec

theorem writeDf_writes (cols : List String) (rows : List (List String))
    (hc : cols ≠ []) (hr : rows ≠ []) :
    (writeDfToExcel cols rows).writes
      = (if cols = idxStrings cols.length then [] else rowWrites 1 cols)
        ++ dataWrites (if cols = idxStrings cols.length then 1 else 2) rows := by
  unfold writeDfToExcel
  rw [if_neg (by simp [hr, hc])]

/-- Every cell of every data row is written, at
`(startRow + rowIndex, columnIndex + 1)`. -/
theorem cellAt_data (cols : List String) (rows : List (List String))
    (hc : cols ≠ []) (hr : rows ≠ []) (i : Nat) (r : List String)
    (hi : rows.get? i = some r) (j : Nat) (v : String) (hj : r.get? j = some v) :
    cellAt (writeDfToExcel cols rows).writes
      ((if cols = idxStrings cols.length then 1 else 2) + i) (j + 1) = some v := by
  rw [writeDf_writes cols rows hc hr]
  unfold cellAt
  by_cases hP : cols = idxStrings cols.length
  · rw [if_pos hP, if_pos hP, List.nil_append]
    unfold dataWrites
    have hdata := find?_dataWrites_hit 1 rows 0 i r hi j v hj
    simp only [Nat.zero_add] at hdata
    rw [show rows.enum = rows.enumFrom 0 from rfl, hdata]
    rfl
  · rw [if_neg hP, if_neg hP, List.find?_append, rowWrites_eq_enumFrom,
      find?_enumRow_none (show 1 ≠ 2 + i by omega), Option.none_or]
    unfold dataWrites
    have hdata := find?_dataWrites_hit 2 rows 0 i r hi j v hj
    simp only [Nat.zero_add] at hdata
    rw [show rows.enum = rows.enumFrom 0 from rfl, hdata]
    rfl

/-- When a header row is emitted, the labels occupy row 1. -/
theorem cellAt_header (cols : List String) (rows : List (List String))
    (hc : cols ≠ []) (hr : rows ≠ []) (hP : cols ≠ idxStrings cols.length)
    (j : Nat) (v : String) (hj : cols.get? j = some v) :
    cellAt (writeDfToExcel cols rows).writes 1 (j + 1) = some v := by
  rw [writeDf_writes cols rows hc hr]
  unfold cellAt
  rw [if_neg hP, List.find?_append, rowWrites_eq_enumFrom]
  have hh := find?_enumRow_hit 1 cols 0 j v hj
  simp only [Nat.zero_add] at hh
  rw [hh]
  rfl

/-! ## Column widths -/

/-- The values later folded into `column_max_lengths` for key `k`, in order. -/
def valsFor (k : Nat) (cells : List (Nat × Nat)) : List Nat :=
  (cells.filter (fun cv => cv.1 == k)).map (fun cv => cv.2)

/-- The running dict value for one key: each update takes
`max(d.get(k, 0), v)`. -/
def accMax (acc : Option Nat) (vs : List Nat) : Option Nat :=
  vs.foldl (fun a v => some (max (a.getD 0) v)) acc

theorem lookup_dictUpsert_eq :
    ∀ (d : List (Nat × Nat)) (k v : Nat),
      List.lookup k (dictUpsert d k v) = some (max ((List.lookup k d).getD 0) v) := by
  intro d
  induction d with
  | nil => intro k v; simp [dictUpsert, List.lookup]
  | cons kv rest ih =>
    intro k v
    unfold dictUpsert
    by_cases h : kv.1 = k
    · rw [if_pos h]
      simp [List.lookup, h, beq_iff_eq]
    · rw [if_neg h]
      have hne : (k == kv.1) = false := by
        rw [beq_eq_false_iff_ne]
        exact fun he => h he.symm
      cases kv with
      | mk k1 v1 =>
        simp only [List.lookup, hne]
        exact ih k v

theorem lookup_dictUpsert_ne :
    ∀ (d : List (Nat × Nat)) (k k2 v : Nat), k2 ≠ k →
      List.lookup k2 (dictUpsert d k v) = List.lookup k2 d := by
  intro d
  induction d with
  | nil =>
    intro k k2 v h
    simp [dictUpsert, List.lookup, beq_eq_false_iff_ne.mpr h]
  | cons kv rest ih =>
    intro k k2 v h
    unfold dictUpsert
    by_cases hh : kv.1 = k
    · rw [if_pos hh]
      have hne : (k2 == kv.1) = false := by
        rw [beq_eq_false_iff_ne]
        intro he
        exact h (he.trans hh)
      cases kv with
      | mk k1 v1 => simp only [List.lookup, hne]
    · rw [if_neg hh]
      cases kv with
      | mk k1 v1 =>
        by_cases he : k2 = k1
        · simp [List.lookup, he]
        · simp only [List.lookup, beq_eq_false_iff_ne.mpr he]
          exact ih k k2 v h

theorem lookup_foldl_upsert :
    ∀ (cells : List (Nat × Nat)) (d : List (Nat × Nat)) (k : Nat),
      List.lookup k (cells.foldl (fun acc cv => dictUpsert acc cv.1 cv.2) d)
        = accMax (List.lookup k d) (valsFor k cells) := by
  intro cells
  induction cells with
  | nil => intro d k; rfl
  | cons cv cells ih =>
    intro d k
    rw [List.foldl_cons]
    by_cases h : cv.1 = k
    · have hfilter : valsFor k (cv :: cells) = cv.2 :: valsFor k cells := by
        unfold valsFor
        rw [List.filter_cons_of_pos (by simp [h]), List.map_cons]
      rw [hfilter, ih (dictUpsert d cv.1 cv.2) k, h, lookup_dictUpsert_eq]
      rfl
    · have hfilter : valsFor k (cv :: cells) = valsFor k cells := by
        unfold valsFor
        rw [List.filter_cons_of_neg (by simp [h])]
      rw [hfilter, ih (dictUpsert d cv.1 cv.2) k,
        lookup_dictUpsert_ne d cv.1 k cv.2 (fun he => h he.symm)]

theorem foldl_max_eq : ∀ (vs : List Nat) (m : Nat), vs.foldl max m = max m (listMax vs) := by
  intro vs
  induction vs with
  | nil => intro m; simp [listMax]
  | cons v vs ih =>
    intro m
    rw [List.foldl_cons, ih (max m v), listMax]
    rw [Nat.max_assoc]

theorem accMax_some : ∀ (vs : List Nat) (m : Nat), accMax (some m) vs = some (vs.foldl max m) := by
  intro vs
  induction vs with
  | nil => intro m; rfl
  | cons v vs ih =>
    intro m
    unfold accMax at ih ⊢
    rw [List.foldl_cons, List.foldl_cons]
    exact ih (max m v)

theorem accMax_none_of_ne_nil {vs : List Nat} (h : vs ≠ []) :
    accMax none vs = some (listMax vs) := by
  cases vs with
  | nil => exact absurd rfl h
  | cons v vs =>
    show accMax (some (max ((none : Option Nat).getD 0) v)) vs = some (listMax (v :: vs))
    rw [accMax_some, foldl_max_eq,
      show ((none : Option Nat).getD 0) = 0 from rfl, Nat.zero_max, listMax]

theorem lookup_map_value (f : Nat → ℚ) :
    ∀ (d : List (Nat × Nat)) (k : Nat),
      List.lookup k (d.map (fun km => (km.1, f km.2))) = (List.lookup k d).map f := by
  intro d
  induction d with
  | nil => intro k; rfl
  | cons kv rest ih =>
    intro k
    cases kv with
    | mk k1 v1 =>
      by_cases h : k = k1
      · simp [List.lookup, h]
      · simp only [List.map_cons, List.lookup, beq_eq_false_iff_ne.mpr h]
        exact ih k

theorem valsFor_writes :
    ∀ (l : List (Nat × Nat × String)) (k : Nat),
      valsFor k (l.map (fun w => (w.2.1, maxLineLen w.2.2)))
        = (l.filter (fun w => w.2.1 == k)).map (fun w => maxLineLen w.2.2) := by
  intro l
  induction l with
  | nil => intro k; rfl
  | cons w l ih =>
    intro k
    by_cases h : w.2.1 = k
    · unfold valsFor
      rw [List.map_cons, List.filter_cons_of_pos (by simp [h]),
        List.filter_cons_of_pos (by simp [h]), List.map_cons, List.map_cons]
      exact congrArg _ (ih k)
    · unfold valsFor
      rw [List.map_cons, List.filter_cons_of_neg (by simp [h]),
        List.filter_cons_of_neg (by simp [h])]
      exact ih k

theorem mem_enumFrom_le {α : Type} :
    ∀ {l : List α} {k : Nat} {x : Nat × α}, x ∈ l.enumFrom k → k ≤ x.1 := by
  intro l
  induction l with
  | nil => intro k x h; simp [List.enumFrom] at h
  | cons a t ih =>
    intro k x h
    rw [List.enumFrom] at h
    rcases List.mem_cons.mp h with h | h
    · subst h
      exact Nat.le_refl k
    · have := ih h
      omega

theorem filter_enumRow_col_none {row c : Nat} :
    ∀ (cells : List String) (k : Nat), c ≤ k →
      ((cells.enumFrom k).map (fun jv => (row, jv.1 + 1, jv.2))).filter
        (fun w => w.2.1 == c) = [] := by
  intro cells k hc
  apply List.filter_eq_nil.mpr
  intro x hx
  obtain ⟨jv, hjv, rfl⟩ := List.mem_map.mp hx
  have hk := mem_enumFrom_le hjv
  simp only [beq_eq_false_iff_ne, ne_eq, beq_iff_eq]
  omega

theorem filter_enumRow_col_hit (row : Nat) :
    ∀ (cells : List String) (k j : Nat) (v : String), cells.get? j = some v →
      ((cells.enumFrom k).map (fun jv => (row, jv.1 + 1, jv.2))).filter
        (fun w => w.2.1 == k + j + 1) = [(row, k + j + 1, v)] := by
  intro cells
  induction cells with
  | nil => intro k j v h; simp at h
  | cons c t ih =>
    intro k j v h
    cases j with
    | zero =>
      obtain rfl : c = v := by simpa using h
      rw [List.enumFrom, List.map_cons, List.filter_cons_of_pos (by simp)]
      rw [filter_enumRow_col_none t (k + 1) (by omega)]
    | succ j2 =>
      rw [List.enumFrom, List.map_cons, List.filter_cons_of_neg (by simp)]
      have h2 : k + 1 + j2 + 1 = k + (j2 + 1) + 1 := by omega
      rw [← h2]
      exact ih (k + 1) j2 v h

theorem map_enumFrom_snd {α β : Type} (φ : α → β) :
    ∀ (l : List α) (i0 : Nat), (l.enumFrom i0).map (fun ix => φ ix.2) = l.map φ := by
  intro l
  induction l with
  | nil => intro i0; rfl
  | cons a t ih =>
    intro i0
    rw [List.enumFrom, List.map_cons, List.map_cons, ih (i0 + 1)]

theorem get?_eq_some_getD {l : List String} {j : Nat} (h : j < l.length) :
    l.get? j = some (l.getD j "") := by
  induction l generalizing j with
  | nil => simp at h
  | cons a t ih =>
    cases j with
    | zero => rfl
    | succ m => exact ih (by simpa using Nat.lt_of_succ_lt_succ h)

theorem filter_dataWrites_col (startRow j : Nat) :
    ∀ (rows : List (List String)) (i0 : Nat), (∀ r ∈ rows, j < r.length) →
      (((rows.enumFrom i0).map (fun ir => rowWrites (startRow + ir.1) ir.2)).join).filter
        (fun w => w.2.1 == j + 1)
      = (rows.enumFrom i0).map (fun ir => (startRow + ir.1, j + 1, ir.2.getD j "")) := by
  intro rows
  induction rows with
  | nil => intro i0 _; rfl
  | cons r0 rest ih =>
    intro i0 hlen
    rw [List.enumFrom, List.map_cons, ljoin_cons, List.filter_append]
    dsimp only
    have hj : r0.get? j = some (r0.getD j "") :=
      get?_eq_some_getD (hlen r0 (List.mem_cons_self r0 rest))
    rw [rowWrites_eq_enumFrom]
    have hh := filter_enumRow_col_hit (startRow + i0) r0 0 j (r0.getD j "") hj
    simp only [Nat.zero_add] at hh
    rw [hh, ih (i0 + 1) (fun r hr => hlen r (List.mem_cons_of_mem r0 hr)), List.map_cons]
    rfl

/-! ## The placeholder sheet and the per-table skip conditions -/

/-- A detected table produces a worksheet iff the formatter returned a
structure and its frame is non-empty. -/
def producesSheet : Option (List String × List (List String)) → Bool
  | none => false
  | some (cols, rows) => !(rows.isEmpty || cols.isEmpty)

theorem processTables_skip (pageNum : Nat) :
    ∀ (ts : List (Option (List String × List (List String))))
      (acc : List (String × SheetData)) (tn : Nat),
      (∀ t ∈ ts, producesSheet t = false) →
      processTables pageNum acc tn ts = acc := by
  intro ts
  induction ts with
  | nil => intro acc tn _; rfl
  | cons t rest ih =>
    intro acc tn h
    cases t with
    | none =>
      rw [processTables]
      exact ih acc (tn + 1) (fun t2 ht2 => h t2 (List.mem_cons_of_mem _ ht2))
    | some cr =>
      obtain ⟨cols, rows⟩ := cr
      have h0 := h (some (cols, rows)) (List.mem_cons_self _ _)
      have hskip : (rows.isEmpty || cols.isEmpty) = true := by
        cases hb : (rows.isEmpty || cols.isEmpty) with
        | true => rfl
        | false =>
          rw [show producesSheet (some (cols, rows))
              = !(rows.isEmpty || cols.isEmpty) from rfl, hb] at h0
          exact absurd h0 (by simp)
      rw [processTables, if_pos hskip]
      exact ih acc (tn + 1) (fun t2 ht2 => h t2 (List.mem_cons_of_mem _ ht2))

theorem processPages_skip :
    ∀ (pages : List (List (Option (List String × List (List String)))))
      (acc : List (String × SheetData)) (pn : Nat),
      (∀ pg ∈ pages, ∀ t ∈ pg, producesSheet t = false) →
      processPages acc pn pages = acc := by
  intro pages
  induction pages with
  | nil => intro acc pn _; rfl
  | cons pg rest ih =>
    intro acc pn h
    rw [processPages, processTables_skip pn pg acc 1 (h pg (List.mem_cons_self _ _))]
    exact ih acc (pn + 1) (fun pg2 hpg2 => h pg2 (List.mem_cons_of_mem _ hpg2))

/-! ## Claim-side descriptions used by the width and header claims -/

/-- The quantity named by the spec for column sizing: the longest single line
across the column's header (when a header row is written) and all its data
cells. -/
def colMaxLen (cols : List String) (rows : List (List String)) (j : Nat) : Nat :=
  listMax (((if cols = idxStrings cols.length then [] else [cols.getD j ""])
    ++ rows.map (fun r => r.getD j "")).map maxLineLen)

/-- Modelled from the spec (§4.5 step 1): the multi-line header
reconstruction the spec claims — convert literal backslash-n sequences in the
labels to newlines, and if any label then spans several lines, pad all label
line-lists to the maximum line count, transpose them into synthetic rows
prepended to the data, and replace the labels by positional indices.  This
transformation does not exist in `src/`; it is stated from the spec's words
only to be compared with the code's behavior. -/
def specMultiLineHeader (cols : List String) (rows : List (List String)) :
    List String × List (List String) :=
  let colLines := cols.map (fun c =>
    (MistralOcr.splitOnChar '\n' (convEscapedNL c.toList)).map String.mk)
  if colLines.any (fun ls => 1 < ls.length) then
    let m := listMax (colLines.map List.length)
    let padded := colLines.map (fun ls => ls ++ List.replicate (m - ls.length) "")
    let synth := (List.range m).map (fun r => padded.map (fun ls => ls.getD r ""))
    (idxStrings cols.length, synth ++ rows)
  else (cols, rows)

end PdfTableExtract

namespace MistralOcr

/-! ## Behavior of the upload loops -/

theorem mistralUploadLoop_over :
    ∀ (chunks : List Nat) (fs w : Nat), w = fs → fs ≤ maxFileSizeBytesMistral →
      maxFileSizeBytesMistral < fs + chunks.sum →
      (mistralUploadLoop fs w chunks).status = 413 ∧
      (mistralUploadLoop fs w chunks).written ≤ maxFileSizeBytesMistral ∧
      (mistralUploadLoop fs w chunks).tempAfterLoop = false ∧
      (mistralUploadLoop fs w chunks).tempAfterRequest = false := by
  intro chunks
  induction chunks with
  | nil =>
    intro fs w hw hle hgt
    simp at hgt
    omega
  | cons c rest ih =>
    intro fs w hw hle hgt
    rw [mistralUploadLoop]
    by_cases hc : fs + c > maxFileSizeBytesMistral
    · rw [if_pos hc]
      exact ⟨rfl, by show w ≤ maxFileSizeBytesMistral; omega, rfl, rfl⟩
    · rw [if_neg hc]
      refine ih (fs + c) (w + c) (by omega) (by omega) ?_
      have hsum : (c :: rest).sum = c + rest.sum := by simp
      omega

theorem mistralUploadTrace_le :
    ∀ (chunks : List Nat) (fs w : Nat), w = fs →
      ∀ x ∈ mistralUploadTrace fs w chunks, x ≤ maxFileSizeBytesMistral := by
  intro chunks
  induction chunks with
  | nil => intro fs w _ x hx; simp [mistralUploadTrace] at hx
  | cons c rest ih =>
    intro fs w hw x hx
    rw [mistralUploadTrace] at hx
    by_cases hc : fs + c > maxFileSizeBytesMistral
    · rw [if_pos hc] at hx
      simp at hx
    · rw [if_neg hc] at hx
      rcases List.mem_cons.mp hx with h | h
      · omega
      · exact ih (fs + c) (w + c) (by omega) x h

end MistralOcr

/-! ## Claim theorems -/

section Claims

open MistralOcr

/-- C1: for every input text containing `k` well-formed markdown tables (the
regex matches, listed by `finditer`), the `/ocr/chat` splicer — which replaces
the table spans in reverse order of appearance with `[TABLE_i]` tokens indexed
by 0-based discovery order — produces exactly the interleaving
`gap₀ ++ [TABLE_0] ++ gap₁ ++ [TABLE_1] ++ … ++ gap_k`: one placeholder per
table in original left-to-right order, with the non-table text unchanged. -/
theorem ocr_chat_splice_segments (s : List Char) :
    spliceRemainingText s = segsFrom s 0 0 (finditer s 0) :=
  splice_eq_segsFrom s

/-- C2: splicing is idempotent: running the table regex over the spliced
output of any input text finds zero matches. -/
theorem ocr_chat_splice_idempotent (s : List Char) :
    finditer (spliceRemainingText s) 0 = [] := by
  rw [splice_eq_segsFrom]
  apply finditer_nil_of_noMatch
  intro q
  cases hm : matchAt (segsFrom s 0 0 (finditer s 0)) q with
  | none => rfl
  | some e =>
    have hhs : HS (segsFrom s 0 0 (finditer s 0)) q :=
      HS_iff_matchAt.mpr (by rw [hm]; rfl)
    exact absurd hhs (noHS_segsFrom s (finditer s 0) 0 0 q
      (finditer_spansOK s 0) (finditer_noMatchBetween s 0)
      (finditer_matchesAll s 0))

open PdfTableExtract

/-- C3 counterexample: with column labels `["0","1"]` and first data row
`["0","1"]` (stringified positional indices for both), the claim says the row
is dropped before writing — which would leave nothing to write, since no
header row is emitted for positional labels and no other rows exist.  The
code writes the row: the sheet holds exactly its two cells. -/
theorem pdf_stray_row_counterexample :
    (writeDfToExcel ["0", "1"] [["0", "1"]]).writes = [(1, 1, "0"), (1, 2, "1")] ∧
    ((1, 1, "0") :: (1, 2, "1") :: [] : List (Nat × Nat × String)) ≠ [] := by
  constructor
  · rfl
  · simp

/-- C3 amended: `write_df_to_excel` implements no stray-numeric-row rule —
the first data row is always written, whatever its cells, at the first data
output row (row 1 for positional-index labels, row 2 otherwise). -/
theorem pdf_first_data_row_written (cols : List String) (r0 : List String)
    (rest : List (List String)) (hc : cols ≠ []) (j : Nat) (v : String)
    (hj : r0.get? j = some v) :
    cellAt (writeDfToExcel cols (r0 :: rest)).writes
      (if cols = idxStrings cols.length then 1 else 2) (j + 1) = some v := by
  have h := cellAt_data cols (r0 :: rest) hc (by simp) 0 r0 rfl j v hj
  simpa using h

/-- Witness for `pdf_first_data_row_written` at the stray-row instance. -/
theorem pdf_first_data_row_written_witness :
    (["0", "1"] : List String) ≠ [] ∧
    cellAt (writeDfToExcel ["0", "1"] [["0", "1"]]).writes
      (if (["0", "1"] : List String) = idxStrings 2 then 1 else 2) 1 = some "0" :=
  ⟨by decide, pdf_first_data_row_written ["0", "1"] ["0", "1"] [] (by decide) 0 "0" rfl⟩

/-- C4 counterexample: a table whose first label holds a literal
backslash-n.  The code passes the labels through unchanged and writes them as
a header row; the reconstruction the claim describes would instead replace
the labels by positional indices and prepend two synthetic rows, giving a
different cell grid. -/
theorem pdf_multiline_header_counterexample :
    (processPdf [[some (["a\\nb", "c"], [["x", "y"]])]]).map
        (fun ts => (ts.1, ts.2.writes))
      = [("Page_1-Table_1", [(1, 1, "a\\nb"), (1, 2, "c"), (2, 1, "x"), (2, 2, "y")])] ∧
    specMultiLineHeader ["a\\nb", "c"] [["x", "y"]]
      = (["0", "1"], [["a", "c"], ["b", ""], ["x", "y"]]) ∧
    (writeDfToExcel ["a\\nb", "c"] [["x", "y"]]).writes
      ≠ (writeDfToExcel ["0", "1"] [["a", "c"], ["b", ""], ["x", "y"]]).writes := by
  refine ⟨by decide, by decide, by decide⟩

/-- C4 amended: `_process_pdf` performs no multi-line header reconstruction:
a present, non-empty table reaches the writer with its column labels exactly
as the formatter produced them, and only the data cells cleaned. -/
theorem pdf_no_header_reconstruction (cols : List String)
    (rows : List (List String)) (hc : cols ≠ []) (hr : rows ≠ []) :
    processPdf [[some (cols, rows)]]
      = [("Page_1-Table_1", writeDfToExcel cols (rows.map (List.map cleanCell)))] := by
  have hcond : (rows.isEmpty || cols.isEmpty) = false := by simp [hc, hr]
  have h1 : processTables 1 [] 1 [some (cols, rows)]
      = [(sheetTitleBase 1 1, writeDfToExcel cols (rows.map (List.map cleanCell)))] := by
    rw [processTables, if_neg (by simp [hcond]), uniqueTitle, if_neg (by simp)]
    rfl
  have h2 : processPages [] 1 [[some (cols, rows)]]
      = [(sheetTitleBase 1 1, writeDfToExcel cols (rows.map (List.map cleanCell)))] := by
    rw [processPages, h1, processPages]
  unfold processPdf
  rw [h2, if_neg (by simp)]
  rw [show sheetTitleBase 1 1 = "Page_1-Table_1" from rfl]

/-- Witness for `pdf_no_header_reconstruction`. -/
theorem pdf_no_header_reconstruction_witness :
    (["h"] : List String) ≠ [] ∧ ([["x"]] : List (List String)) ≠ [] ∧
    processPdf [[some (["h"], [["x"]])]]
      = [("Page_1-Table_1", writeDfToExcel ["h"] [["x"]])] :=
  ⟨by decide, by decide,
    pdf_no_header_reconstruction ["h"] [["x"]] (by decide) (by decide)⟩

/-- C5: when the column labels are exactly the positional-index strings, the
writer emits no header row (the write list is just the data writes) and the
data occupies rows `1, 2, …`; otherwise the labels land on row 1 and the
data on rows `2, 3, …`. -/
theorem pdf_header_row_decision (cols : List String) (rows : List (List String))
    (hc : cols ≠ []) (hr : rows ≠ []) :
    (cols = idxStrings cols.length →
      (writeDfToExcel cols rows).writes = dataWrites 1 rows ∧
      ∀ i r, rows.get? i = some r → ∀ j v, r.get? j = some v →
        cellAt (writeDfToExcel cols rows).writes (1 + i) (j + 1) = some v) ∧
    (cols ≠ idxStrings cols.length →
      (∀ j v, cols.get? j = some v →
        cellAt (writeDfToExcel cols rows).writes 1 (j + 1) = some v) ∧
      ∀ i r, rows.get? i = some r → ∀ j v, r.get? j = some v →
        cellAt (writeDfToExcel cols rows).writes (2 + i) (j + 1) = some v) := by
  constructor
  · intro hP
    constructor
    · rw [writeDf_writes cols rows hc hr, if_pos hP, if_pos hP, List.nil_append]
    · intro i r hi j v hj
      have h := cellAt_data cols rows hc hr i r hi j v hj
      rwa [if_pos hP] at h
  · intro hP
    constructor
    · intro j v hj
      exact cellAt_header cols rows hc hr hP j v hj
    · intro i r hi j v hj
      have h := cellAt_data cols rows hc hr i r hi j v hj
      rwa [if_neg hP] at h

/-- Witness for `pdf_header_row_decision`: positional labels put the first
data row on row 1; named labels put it on row 2 under the header. -/
theorem pdf_header_row_decision_witness :
    (["0", "1"] : List String) ≠ [] ∧ ([["a", "b"]] : List (List String)) ≠ [] ∧
    cellAt (writeDfToExcel ["0", "1"] [["a", "b"]]).writes 1 1 = some "a" ∧
    cellAt (writeDfToExcel ["Name", "Age"] [["a", "b"]]).writes 1 1 = some "Name" ∧
    cellAt (writeDfToExcel ["Name", "Age"] [["a", "b"]]).writes 2 1 = some "a" := by
  refine ⟨by decide, by decide, ?_, ?_, ?_⟩
  · have h := ((pdf_header_row_decision ["0", "1"] [["a", "b"]]
      (by decide) (by decide)).1 (by decide)).2 0 ["a", "b"] rfl 0 "a" rfl
    simpa using h
  · have h := ((pdf_header_row_decision ["Name", "Age"] [["a", "b"]]
      (by decide) (by decide)).2 (by decide)).1 0 "Name" rfl
    simpa using h
  · have h := ((pdf_header_row_decision ["Name", "Age"] [["a", "b"]]
      (by decide) (by decide)).2 (by decide)).2 0 ["a", "b"] rfl 0 "a" rfl
    simpa using h

/-- C6 counterexample: for a column whose longest line has 20 characters the
code sets width `min(max((20+2)*1.2, 8), 70) = 26.4`, not the claimed
`min(max((20+2)*1.15, 8), 70) = 25.3`. -/
theorem pdf_width_formula_counterexample :
    (writeDfToExcel ["h"] [["aaaaaaaaaaaaaaaaaaaa"]]).widths = [(1, 132 / 5)] ∧
    ((132 : ℚ) / 5) ≠ min (max (((20 : ℚ) + 2) * (23 / 20)) 8) 70 := by
  constructor
  · show [(1, widthFormula 20)] = [(1, (132 : ℚ) / 5)]
    norm_num [widthFormula]
  · norm_num

/-- C6 amended: for a rectangular non-empty table, every column `j` gets the
width `min(max((M + 2) * 1.2, 8), 70)` where `M` is the longest single line
across the column's header cell (when a header row is written) and all its
data cells. -/
theorem pdf_column_width_rule (cols : List String) (rows : List (List String))
    (hc : cols ≠ []) (hr : rows ≠ [])
    (hrect : ∀ r ∈ rows, r.length = cols.length) (j : Nat) (hj : j < cols.length) :
    List.lookup (j + 1) (writeDfToExcel cols rows).widths
      = some (widthFormula (colMaxLen cols rows j)) := by
  have hwidths : (writeDfToExcel cols rows).widths
      = ((((if cols = idxStrings cols.length then [] else rowWrites 1 cols)
          ++ dataWrites (if cols = idxStrings cols.length then 1 else 2) rows).foldl
            (fun acc w => dictUpsert acc w.2.1 (maxLineLen w.2.2)) []).map
          (fun km => (km.1, widthFormula km.2))) := by
    unfold writeDfToExcel
    rw [if_neg (by simp [hr, hc])]
  rw [hwidths, lookup_map_value]
  have hfold : ((if cols = idxStrings cols.length then [] else rowWrites 1 cols)
        ++ dataWrites (if cols = idxStrings cols.length then 1 else 2) rows).foldl
          (fun acc w => dictUpsert acc w.2.1 (maxLineLen w.2.2)) []
      = (((if cols = idxStrings cols.length then [] else rowWrites 1 cols)
          ++ dataWrites (if cols = idxStrings cols.length then 1 else 2) rows).map
            (fun w => (w.2.1, maxLineLen w.2.2))).foldl
          (fun acc cv => dictUpsert acc cv.1 cv.2) [] := by
    rw [List.foldl_map]
  rw [hfold, lookup_foldl_upsert, valsFor_writes]
  have hfilter : ((if cols = idxStrings cols.length then [] else rowWrites 1 cols)
        ++ dataWrites (if cols = idxStrings cols.length then 1 else 2) rows).filter
          (fun w => w.2.1 == j + 1)
      = (if cols = idxStrings cols.length then []
          else [(1, j + 1, cols.getD j "")])
        ++ (rows.enumFrom 0).map
            (fun ir => ((if cols = idxStrings cols.length then 1 else 2) + ir.1,
              j + 1, ir.2.getD j "")) := by
    rw [List.filter_append]
    congr 1
    · by_cases hP : cols = idxStrings cols.length
      · rw [if_pos hP, if_pos hP]
        rfl
      · rw [if_neg hP, if_neg hP, rowWrites_eq_enumFrom]
        have hh := filter_enumRow_col_hit 1 cols 0 j (cols.getD j "")
          (get?_eq_some_getD hj)
        simpa using hh
    · unfold dataWrites
      rw [show rows.enum = rows.enumFrom 0 from rfl]
      exact filter_dataWrites_col _ j rows 0
        (fun r hrr => by rw [hrect r hrr]; exact hj)
  rw [hfilter, List.map_append, List.map_map]
  rw [show ((fun w => maxLineLen w.2.2) ∘ (fun ir : Nat × List String =>
      ((if cols = idxStrings cols.length then 1 else 2) + ir.1, j + 1, ir.2.getD j "")))
    = (fun ir : Nat × List String => maxLineLen (ir.2.getD j "")) from rfl]
  rw [map_enumFrom_snd (fun (r : List String) => maxLineLen (r.getD j "")) rows 0]
  have hhdr : ((if cols = idxStrings cols.length then ([] : List (Nat × Nat × String))
        else [(1, j + 1, cols.getD j "")]).map (fun w => maxLineLen w.2.2))
      = ((if cols = idxStrings cols.length then ([] : List String)
          else [cols.getD j ""]).map maxLineLen) := by
    by_cases hP : cols = idxStrings cols.length
    · rw [if_pos hP, if_pos hP]
      rfl
    · rw [if_neg hP, if_neg hP]
      rfl
  rw [hhdr]
  have hlens : ((if cols = idxStrings cols.length then ([] : List String)
        else [cols.getD j ""]).map maxLineLen)
        ++ rows.map (fun r => maxLineLen (r.getD j ""))
      = (((if cols = idxStrings cols.length then ([] : List String)
          else [cols.getD j ""]) ++ rows.map (fun r => r.getD j "")).map maxLineLen) := by
    rw [List.map_append, List.map_map]
    rfl
  rw [show (List.lookup (j + 1) ([] : List (Nat × Nat)) : Option Nat) = none from rfl,
    hlens, accMax_none_of_ne_nil (by simp [hr]), colMaxLen]
  rfl

/-- Witness for `pdf_column_width_rule`. -/
theorem pdf_column_width_rule_witness :
    (["h"] : List String) ≠ [] ∧ ([["ab"]] : List (List String)) ≠ [] ∧
    (∀ r ∈ ([["ab"]] : List (List String)), r.length = (["h"] : List String).length) ∧
    0 < (["h"] : List String).length ∧
    List.lookup 1 (writeDfToExcel ["h"] [["ab"]]).widths
      = some (widthFormula (colMaxLen ["h"] [["ab"]] 0)) :=
  ⟨by decide, by decide, by decide, by decide,
    pdf_column_width_rule ["h"] [["ab"]] (by decide) (by decide) (by decide) 0 (by decide)⟩

/-- C7 counterexample: a 26 MB upload (26 chunks of 1 MB) on the
table-extraction path is rejected with 413, but only after every byte was
already streamed to the temp file: the bytes written equal the full 26 MB,
which exceeds the 25 MB ceiling — the abort does not happen "the moment
cumulative bytes exceed the ceiling". -/
theorem pdf_upload_counterexample :
    (pdfUpload (List.replicate 26 (1024 * 1024))).status = 413 ∧
    (pdfUpload (List.replicate 26 (1024 * 1024))).written = 26 * 1024 * 1024 ∧
    maxFileSizeMBPdf * 1024 * 1024 < 26 * 1024 * 1024 := by
  have hsum : (List.replicate 26 (1024 * 1024)).sum = 26 * 1024 * 1024 := by decide
  have hout : pdfUpload (List.replicate 26 (1024 * 1024))
      = ⟨413, 26 * 1024 * 1024, true, false⟩ := by
    show (if (((List.replicate 26 (1024 * 1024) : List Nat).sum : ℚ) / (1024 * 1024)
          > (maxFileSizeMBPdf : ℚ)) then
        (⟨413, (List.replicate 26 (1024 * 1024)).sum, true, false⟩ :
          MistralOcr.UploadOutcome)
      else ⟨0, (List.replicate 26 (1024 * 1024)).sum, true, false⟩)
      = ⟨413, 26 * 1024 * 1024, true, false⟩
    rw [hsum, if_pos (by norm_num [maxFileSizeMBPdf])]
  refine ⟨?_, ?_, ?_⟩
  · rw [hout]
  · rw [hout]
  · decide

/-- C7 amended: on an oversized upload the two services behave differently.
The OCR path checks the running total against its 50 MB ceiling before each
write, so it aborts with 413 having written at most the ceiling, deletes the
partial temp file at once, and no temp file remains after the request.  The
table-extraction path streams the whole file to disk first, then returns 413
from its post-loop 25 MB check: the bytes written equal the full upload, the
temp file still exists when the loop ends, and it is only removed by the
request's `finally` cleanup. -/
theorem upload_ceiling_behavior (chunks : List Nat)
    (h : maxFileSizeBytesMistral < chunks.sum) :
    ((mistralUpload chunks).status = 413 ∧
      (mistralUpload chunks).written ≤ maxFileSizeBytesMistral ∧
      (mistralUpload chunks).tempAfterLoop = false ∧
      (mistralUpload chunks).tempAfterRequest = false) ∧
    ((pdfUpload chunks).status = 413 ∧
      (pdfUpload chunks).written = chunks.sum ∧
      (pdfUpload chunks).tempAfterLoop = true ∧
      (pdfUpload chunks).tempAfterRequest = false) := by
  have hmb : maxFileSizeBytesMistral = 52428800 := rfl
  have hocr2 : 26214400 < chunks.sum := by omega
  have hq : ((chunks.sum : ℚ)) / (1024 * 1024) > (maxFileSizeMBPdf : ℚ) := by
    rw [gt_iff_lt, show (maxFileSizeMBPdf : ℚ) = 25 from by norm_num [maxFileSizeMBPdf],
      lt_div_iff (by norm_num)]
    have h2 : (26214400 : ℚ) < (chunks.sum : ℚ) := by exact_mod_cast hocr2
    linarith
  have hpdf : pdfUpload chunks = ⟨413, chunks.sum, true, false⟩ := by
    show (if ((chunks.sum : ℚ) / (1024 * 1024) > (maxFileSizeMBPdf : ℚ)) then
        (⟨413, chunks.sum, true, false⟩ : MistralOcr.UploadOutcome)
      else ⟨0, chunks.sum, true, false⟩) = ⟨413, chunks.sum, true, false⟩
    rw [if_pos hq]
  obtain ⟨h1, h2, h3, h4⟩ :=
    mistralUploadLoop_over chunks 0 0 rfl (Nat.zero_le _) (by omega)
  exact ⟨⟨h1, h2, h3, h4⟩, by rw [hpdf], by rw [hpdf], by rw [hpdf], by rw [hpdf]⟩

/-- Witness for `upload_ceiling_behavior`. -/
theorem upload_ceiling_behavior_witness :
    maxFileSizeBytesMistral < ([52428801] : List Nat).sum ∧
    (((mistralUpload [52428801]).status = 413 ∧
      (mistralUpload [52428801]).written ≤ maxFileSizeBytesMistral ∧
      (mistralUpload [52428801]).tempAfterLoop = false ∧
      (mistralUpload [52428801]).tempAfterRequest = false) ∧
    ((pdfUpload [52428801]).status = 413 ∧
      (pdfUpload [52428801]).written = ([52428801] : List Nat).sum ∧
      (pdfUpload [52428801]).tempAfterLoop = true ∧
      (pdfUpload [52428801]).tempAfterRequest = false)) :=
  ⟨by decide, upload_ceiling_behavior [52428801] (by decide)⟩

/-- C8: the workbook serialized by `_process_pdf` never has zero sheets, and
when no detected table on any page produces a worksheet the workbook is
exactly the single placeholder sheet titled "No Tables Found". -/
theorem pdf_no_tables_placeholder
    (pages : List (List (Option (List String × List (List String))))) :
    1 ≤ (processPdf pages).length ∧
    ((∀ pg ∈ pages, ∀ t ∈ pg, producesSheet t = false) →
      processPdf pages = [("No Tables Found", ⟨[], []⟩)]) := by
  constructor
  · show 1 ≤ (if (processPages [] 1 pages).isEmpty then
        [("No Tables Found", ⟨[], []⟩)] else processPages [] 1 pages).length
    cases hx : processPages [] 1 pages with
    | nil => decide
    | cons a l => simp
  · intro h
    show (if (processPages [] 1 pages).isEmpty then
        [("No Tables Found", ⟨[], []⟩)] else processPages [] 1 pages)
      = [("No Tables Found", ⟨[], []⟩)]
    rw [processPages_skip pages [] 1 h]
    rfl

/-- Witness for `pdf_no_tables_placeholder`: a one-page PDF whose single
detected region the formatter could not structure. -/
theorem pdf_no_tables_placeholder_witness :
    (∀ pg ∈ ([[(none : Option (List String × List (List String)))]] :
        List (List (Option (List String × List (List String))))),
      ∀ t ∈ pg, producesSheet t = false) ∧
    (1 ≤ (processPdf [[none]]).length ∧
      ((∀ pg ∈ ([[(none : Option (List String × List (List String)))]] :
          List (List (Option (List String × List (List String))))),
        ∀ t ∈ pg, producesSheet t = false) →
        processPdf [[none]] = [("No Tables Found", ⟨[], []⟩)])) :=
  ⟨by decide, pdf_no_tables_placeholder [[none]]⟩

/-- C9: in the OCR upload loop the chunk length is added to the running total
and checked against the 50 MB ceiling before the chunk is written, so every
value of "bytes written to the temp file" observable during a request is at
most `MAX_FILE_SIZE_BYTES_MISTRAL`, even for an oversized upload. -/
theorem ocr_upload_size_invariant (chunks : List Nat) :
    ∀ w ∈ mistralUploadTrace 0 0 chunks, w ≤ maxFileSizeBytesMistral :=
  fun w hw => mistralUploadTrace_le chunks 0 0 rfl w hw

/-- Witness for `ocr_upload_size_invariant`. -/
theorem ocr_upload_size_invariant_witness :
    5 ∈ mistralUploadTrace 0 0 [5] ∧ 5 ≤ maxFileSizeBytesMistral :=
  ⟨by decide, ocr_upload_size_invariant [5] 5 (by decide)⟩

/-- C10: `chat_with_document_endpoint` validates with Python truthiness, so a
`document_text` that is present but equal to `""` is rejected with the same
400 "Missing document_text in request" as an absent field (`Option.getD ""`
collapses `none` and `some ""`), and an empty `user_message` is likewise
rejected as missing. -/
theorem chat_empty_fields_rejected (d u : Option String) :
    (d.getD "" = "" →
      chatWithDocumentValidate d u
        = Except.error (400, "Missing document_text in request")) ∧
    (d.getD "" ≠ "" → u.getD "" = "" →
      chatWithDocumentValidate d u
        = Except.error (400, "Missing user_message in request")) := by
  constructor
  · intro hd
    unfold chatWithDocumentValidate
    rw [if_pos hd]
  · intro hd hu
    unfold chatWithDocumentValidate
    rw [if_neg hd, if_pos hu]

/-- Witness for `chat_empty_fields_rejected`: an explicit empty
`document_text` is rejected exactly like an absent one, and an explicit empty
`user_message` is rejected as missing. -/
theorem chat_empty_fields_rejected_witness :
    chatWithDocumentValidate (some "") (some "hello")
      = Except.error (400, "Missing document_text in request") ∧
    chatWithDocumentValidate none (some "hello")
      = Except.error (400, "Missing document_text in request") ∧
    chatWithDocumentValidate (some "doc") (some "")
      = Except.error (400, "Missing user_message in request") :=
  ⟨(chat_empty_fields_rejected (some "") (some "hello")).1 rfl,
   (chat_empty_fields_rejected none (some "hello")).1 rfl,
   (chat_empty_fields_rejected (some "doc") (some "")).2 (by decide) rfl⟩

end Claims

end PrimithSpec
